import Mathlib

/-!
# Shallow embedding of the hypergo core (src/game/mod.rs, src/geometry/*)

The game core is translated from the Rust source.  Machine floats (`f64`) are
modelled by exact rationals `ℚ`; the geometry trait `Spinor`/`Point` is
modelled by a record `Geom S P` of the operations `Board`/`GameState` actually
use, so that board-generation theorems quantify over every geometry.  The two
concrete spinor algebras of src/geometry/euclidian.rs and
src/geometry/hyperbolic.rs are embedded separately (over `ℚ`) for the algebraic
round-trip claims.  `Vec` becomes `List`; a `Vec` used as a stack (push/pop at
the back) is modelled as a list whose head is the stack top, so `extend`
becomes prepending the reversed chunk.  `i32` indices become `Int` where the
sentinel `-1` matters and `Nat` once a nonnegativity check has been passed,
mirroring the `as usize` casts.  The `assert!(edge_len % 2 == 1)` panic is
modelled by an `Option` result.
-/

set_option linter.unusedVariables false

/-- Stone state of a board point (enum StoneType). -/
inductive StoneType where
  | Empty
  | Black
  | White
  deriving DecidableEq, Repr

/-- Current player (enum Turn). -/
inductive Turn where
  | Black
  | White
  deriving DecidableEq, Repr

/-- struct TilingParameters (src/geometry/mod.rs). -/
structure TilingParameters where
  edge_count : Nat
  sides : Nat
  around_vertex : Nat
  angle : ℚ
  distance : ℚ
  link_len : ℚ
  stone_scale : ℚ
  deriving DecidableEq, Repr

/-- struct BoardPoint<SpinorT> (src/game/mod.rs). -/
structure BoardPoint (S P : Type) where
  pos : P
  transform : S
  relative_transform : S
  neighbors : List Nat
  ty : StoneType
  reversed : Bool
  deriving DecidableEq, Repr

/-- struct Board<SpinorT> (src/game/mod.rs). -/
structure Board (S P : Type) where
  points : List (BoardPoint S P)
  links : List (Nat × Nat)
  history : List (List StoneType)
  history_idx : Int
  tiling_parameters : TilingParameters
  deriving DecidableEq, Repr

/-- The operations of the `Spinor`/`Point` traits used by the game core,
bundled so board code is generic over the geometry exactly as in the source.
`dist` is the `Point::distance` method, `app` is `Spinor::apply`, `zero` is
`Point::zero`. -/
structure Geom (S P : Type) where
  one : S
  mul : S → S → S
  reverse : S → S
  normalize : S → S
  app : S → P → P
  zero : P
  dist : P → P → ℚ
  translation : ℚ → ℚ → S

/-- struct GameState<SpinorT> (src/game/mod.rs). -/
structure GameState (S P : Type) where
  board : Board S P
  turn : Turn
  hover_idx : Int
  needs_render : Bool
  deriving DecidableEq, Repr

/-- pub const STONE_RADIUS: f64 = 0.4. -/
def STONE_RADIUS : ℚ := 2/5

/-- Stone state at index `i`; out-of-range reads (which would panic in Rust)
default to Empty and are excluded by the well-formedness facts proved about
generated boards. -/
def tyAt {S P : Type} (pts : List (BoardPoint S P)) (i : Nat) : StoneType :=
  ((pts.get? i).map (fun p => p.ty)).getD StoneType.Empty

/-- Neighbor list at index `i` (out of range: empty). -/
def nbrsAt {S P : Type} (pts : List (BoardPoint S P)) (i : Nat) : List Nat :=
  ((pts.get? i).map (fun p => p.neighbors)).getD []

/-- Transform of the point at index `i` (out of range: identity). -/
def transformAt {S P : Type} (g : Geom S P) (pts : List (BoardPoint S P)) (i : Nat) : S :=
  ((pts.get? i).map (fun p => p.transform)).getD g.one

/-- `reversed` flag of the point at index `i` (out of range: false). -/
def reversedAt {S P : Type} (pts : List (BoardPoint S P)) (i : Nat) : Bool :=
  ((pts.get? i).map (fun p => p.reversed)).getD false

/-- Position of the point at index `i` (out of range: origin). -/
def posAt {S P : Type} (g : Geom S P) (pts : List (BoardPoint S P)) (i : Nat) : P :=
  ((pts.get? i).map (fun p => p.pos)).getD g.zero

/-- Loop body of Board::find_point: scan for the first point within `d` of
`pos`, returning its index, or -1 when none is found. -/
def findPointAux {S P : Type} (g : Geom S P) (pos : P) (d : ℚ) :
    List (BoardPoint S P) → Nat → Int
  | [], _ => -1
  | p :: ps, i => if g.dist pos p.pos ≤ d then (i : Int) else findPointAux g pos d ps (i + 1)

/-- Board::find_point on a raw point list. -/
def findPointList {S P : Type} (g : Geom S P) (pts : List (BoardPoint S P))
    (pos : P) (d : ℚ) : Int :=
  findPointAux g pos d pts 0

/-- fn find_point(&self, pos, dist) -> i32 (src/game/mod.rs:181). -/
def Board.findPoint {S P : Type} (g : Geom S P) (b : Board S P) (pos : P) (d : ℚ) : Int :=
  findPointList g b.points pos d

/-- self.points[i].neighbors.push(v): append `v` to the neighbor list of point
`i` (no-op out of range; in Rust the index is always valid here). -/
def pushNeighbor {S P : Type} : List (BoardPoint S P) → Nat → Nat →
    List (BoardPoint S P)
  | [], _, _ => []
  | p :: ps, 0, v => { p with neighbors := p.neighbors ++ [v] } :: ps
  | p :: ps, m + 1, v => p :: pushNeighbor ps m v

/-- The neighbor-scan loop of fn add_point (src/game/mod.rs:163-176): walk the
chained direction list; for each direction whose target position matches an
existing point, record the mutual neighbor links and the new link edge.  State
is (points, links, neighbors-of-the-new-point). -/
def addPointScan {S P : Type} (g : Geom S P) (thisIdx : Nat) (transform : S) :
    List S → List (BoardPoint S P) × List (Nat × Nat) × List Nat →
    List (BoardPoint S P) × List (Nat × Nat) × List Nat
  | [], st => st
  | dir :: ds, (pts, lks, nbs) =>
    let checking_pos := g.app (g.mul transform dir) g.zero
    let i := findPointList g pts checking_pos (1/10)
    if 0 ≤ i then
      addPointScan g thisIdx transform ds
        (pushNeighbor pts i.toNat thisIdx, lks ++ [(i.toNat, thisIdx)], nbs ++ [i.toNat])
    else
      addPointScan g thisIdx transform ds (pts, lks, nbs)

/-- fn add_point (src/game/mod.rs:143-178). -/
def Board.addPoint {S P : Type} (g : Geom S P) (b : Board S P)
    (neighbor_directions reverse_neighbor_directions : List S)
    (transform : S) (reversed : Bool) : Board S P :=
  let pos := g.app transform g.zero
  let thisIdx := b.points.length
  let st := addPointScan g thisIdx transform
    (neighbor_directions ++ reverse_neighbor_directions) (b.points, b.links, [])
  { b with
      points := st.1 ++ [{ pos := pos, transform := transform,
                           relative_transform := transform,
                           neighbors := st.2.2, ty := StoneType.Empty,
                           reversed := reversed }],
      links := st.2.1 }

/-- fn save_move (src/game/mod.rs:196-201): advance the cursor, truncate any
redo branch, append a snapshot of the current stone states.  (The `as usize`
cast is modelled by `toNat`; the cursor is nonnegative whenever this runs.) -/
def Board.saveMove {S P : Type} (b : Board S P) : Board S P :=
  let idx := b.history_idx + 1
  { b with
      history_idx := idx,
      history := b.history.take idx.toNat ++ [b.points.map (fun p => p.ty)] }

/-- Write `snap[i]` into the stone state of point `i`, for every point.  The
second pattern (snapshot exhausted) cannot occur in Rust, where snapshots
always have exactly one entry per point (indexing would panic otherwise). -/
def restoreTypes {S P : Type} : List (BoardPoint S P) → List StoneType →
    List (BoardPoint S P)
  | [], _ => []
  | ps, [] => ps
  | p :: ps, t :: ts => { p with ty := t } :: restoreTypes ps ts

/-- fn move_history (src/game/mod.rs:203-212): shift the cursor by `offset`;
if the shifted cursor is out of range undo the shift and return (silent
no-op), otherwise restore every stone state from the snapshot at the new
cursor. -/
def Board.moveHistory {S P : Type} (b : Board S P) (offset : Int) : Board S P :=
  let idx := b.history_idx + offset
  if idx < 0 ∨ (b.history.length : Int) ≤ idx then b
  else
    { b with
        history_idx := idx,
        points := restoreTypes b.points (b.history.getD idx.toNat []) }

/-- The stone states of all points, in index order. -/
def Board.currentTypes {S P : Type} (b : Board S P) : List StoneType :=
  b.points.map (fun p => p.ty)

/-! ## Board generation (fn make_board, src/game/mod.rs:63-139)

The three nested loops and the unbounded `cycle()` walk are modelled by four
recursive functions.  An early `return board` (the 2500-point ceiling,
lines 125-127) is `Sum.inl`; a normal exit carrying (board, test_count) is
`Sum.inr`.  The innermost walk terminates because every iteration after the
first either adds a point (bounded by the ceiling) or breaks. -/

/-- Lines 103-108 of src/game/mod.rs: advance `cur_transform` by the direction
(or its reverse when the link is orientation-reversed) and renormalize. -/
def nextTransform {S P : Type} (g : Geom S P) (cur dir : S) (link_reversed : Bool) : S :=
  g.normalize (if link_reversed then g.mul cur (g.reverse dir) else g.mul cur dir)

/-- The `for (k, &dir) in neighbor_directions.iter().cycle().skip(j).enumerate()`
walk (src/game/mod.rs:101-128) for parent point `i` of ring walk `j`.  `cur` is
`cur_transform`, `count` is `test_count`. -/
def ringInner {S P : Type} (g : Geom S P) (dirs revDirs : List S) (i j : Nat) :
    (cur : S) → (k : Nat) → (b : Board S P) → (count : Nat) →
    Board S P ⊕ (Board S P × Nat)
  | cur, k, b, count =>
    let dir := dirs.getD ((j + k) % dirs.length) g.one
    let link_reversed := ((k % 2 == 1) ^^ reversedAt b.points i)
    let cur' := nextTransform g cur dir link_reversed
    let pos := g.app cur' g.zero
    if b.findPoint g pos (1/1000) ≠ -1 then
      if k = 0 then ringInner g dirs revDirs i j cur' (k + 1) b count
      else Sum.inr (b, count)
    else
      let b' := b.addPoint g dirs revDirs cur' (!link_reversed)
      let count' := count + 1
      if 2500 ≤ count' then Sum.inl b'
      else ringInner g dirs revDirs i j cur' (k + 1) b' count'
  termination_by _ k _ count => (2500 - count, if k = 0 then 1 else 0)
  decreasing_by
  · apply Prod.Lex.right
    simp_all
  · apply Prod.Lex.left
    omega

/-- The `for j in 0..neighbor_directions.len()` loop (src/game/mod.rs:99). -/
def ringMiddle {S P : Type} (g : Geom S P) (dirs revDirs : List S) (i : Nat) :
    (j : Nat) → (b : Board S P) → (count : Nat) → Board S P ⊕ (Board S P × Nat)
  | j, b, count =>
    if j < dirs.length then
      match ringInner g dirs revDirs i j (transformAt g b.points i) 0 b count with
      | Sum.inl bE => Sum.inl bE
      | Sum.inr (b', count') => ringMiddle g dirs revDirs i (j + 1) b' count'
    else Sum.inr (b, count)
  termination_by j _ _ => dirs.length - j

/-- The `for i in start_i..l` loop (src/game/mod.rs:98). -/
def ringPoints {S P : Type} (g : Geom S P) (dirs revDirs : List S) :
    (i l : Nat) → (b : Board S P) → (count : Nat) → Board S P ⊕ (Board S P × Nat)
  | i, l, b, count =>
    if i < l then
      match ringMiddle g dirs revDirs i 0 b count with
      | Sum.inl bE => Sum.inl bE
      | Sum.inr (b', count') => ringPoints g dirs revDirs (i + 1) l b' count'
    else Sum.inr (b, count)
  termination_by i l _ _ => l - i

/-- The `for _ring in 1..(edge_len / 2 + 1)` loop (src/game/mod.rs:96-132),
by its number of remaining iterations; `start_i` threads through. -/
def ringsLoop {S P : Type} (g : Geom S P) (dirs revDirs : List S) :
    Nat → (start_i : Nat) → (b : Board S P) → (count : Nat) →
    Board S P ⊕ (Board S P × Nat)
  | 0, _, b, count => Sum.inr (b, count)
  | r + 1, start_i, b, count =>
    let l := b.points.length
    match ringPoints g dirs revDirs start_i l b count with
    | Sum.inl bE => Sum.inl bE
    | Sum.inr (b', count') => ringsLoop g dirs revDirs r l b' count'

/-- Lines 134-136 of src/game/mod.rs: push the initial all-Empty snapshot
after generation completes normally. -/
def pushInitialHistory {S P : Type} (b : Board S P) : Board S P :=
  { b with history := b.history ++ [List.replicate b.points.length StoneType.Empty] }

/-- The neighbor-direction isometries (src/game/mod.rs:67-74): one
translation per step around a vertex. -/
def neighborDirections {S P : Type} (g : Geom S P) (tp : TilingParameters) : List S :=
  (List.range tp.around_vertex).map
    (fun i => g.translation tp.distance ((i : ℚ) * tp.angle))

/-- The board before any generation: no points, no history, cursor 0. -/
def emptyBoard {S P : Type} (tp : TilingParameters) : Board S P :=
  { points := [], links := [], history := [], history_idx := 0,
    tiling_parameters := tp }

/-- The board with just the seed point at the identity transform
(src/game/mod.rs:89-94). -/
def initialBoard {S P : Type} (g : Geom S P) (tp : TilingParameters) : Board S P :=
  (emptyBoard tp).addPoint g (neighborDirections g tp)
    ((neighborDirections g tp).map g.reverse) g.one false

/-- fn make_board (src/game/mod.rs:63-139).  The `assert!(edge_len % 2 == 1)`
panic is modelled by `none`; `Sum.inl` (ceiling hit) returns the partial board
without a history snapshot, exactly as the early `return board` does. -/
def makeBoard {S P : Type} (g : Geom S P) (tp : TilingParameters) (edge_len : Nat) :
    Option (Board S P) :=
  if edge_len % 2 = 1 then
    match ringsLoop g (neighborDirections g tp)
        ((neighborDirections g tp).map g.reverse) (edge_len / 2) 0
        (initialBoard g tp) 1 with
    | Sum.inl bE => some bE
    | Sum.inr (b, _) => some (pushInitialHistory b)
  else none

/-! ## Capture engine (src/game/mod.rs:243-305) -/

/-- StoneType captured by the given player in update_captures (the opposite
color, src/game/mod.rs:244-247). -/
def oppColor : Turn → StoneType
  | Turn.Black => StoneType.White
  | Turn.White => StoneType.Black

/-- StoneType the given player places / checks in is_self_capture
(src/game/mod.rs:285-288, 319-322). -/
def ownColor : Turn → StoneType
  | Turn.Black => StoneType.Black
  | Turn.White => StoneType.White

/-- The `while let Some(i) = search_stack.pop()` flood fill of one branch of
update_captures (src/game/mod.rs:259-270): pop a point; an Empty point aborts
the branch (`continue 'outer`, here `none`); a same-colored unvisited point is
marked checked and its neighbors are pushed; anything else is skipped.
Exhaustion returns the checked list (`some`).  The stack top is the list head;
`extend` pushes at the Vec's back, hence the reversed prepend. -/
def captureSearch {S P : Type} (pts : List (BoardPoint S P)) (c : StoneType) :
    (stack checked : List Nat) → Option (List Nat)
  | [], checked => some checked
  | i :: rest, checked =>
    let ty := tyAt pts i
    if ty = StoneType.Empty then none
    else if ty = c ∧ i ∉ checked then
      captureSearch pts c ((nbrsAt pts i).reverse ++ rest) (checked ++ [i])
    else
      captureSearch pts c rest checked
  termination_by stack checked =>
    (((Finset.range pts.length).filter
        (fun v => tyAt pts v = c ∧ v ∉ checked)).card, stack.length)
  decreasing_by
  · apply Prod.Lex.left
    rename_i hne hcond
    apply Finset.card_lt_card
    have hilt : i < pts.length := by
      by_contra hge
      have hnone : pts.get? i = none := List.get?_eq_none.mpr (Nat.le_of_not_lt hge)
      have hemp : tyAt pts i = StoneType.Empty := by
        unfold tyAt
        rw [hnone]
        rfl
      exact hne hemp
    constructor
    · intro v hv
      simp only [Finset.mem_filter, Finset.mem_range, List.mem_append,
        List.mem_singleton] at hv ⊢
      exact ⟨hv.1, hv.2.1, fun hc => hv.2.2 (Or.inl hc)⟩
    · intro hsub
      have hmem := hsub (by
        simp only [Finset.mem_filter, Finset.mem_range]
        exact ⟨hilt, hcond.1, hcond.2⟩)
      rw [Finset.mem_filter] at hmem
      exact hmem.2.2 (by simp)
  · apply Prod.Lex.right
    simp

/-- The identical flood fill of fn is_self_capture (src/game/mod.rs:292-304):
returns false as soon as an Empty point (a liberty) is popped, true at
exhaustion. -/
def selfCaptureLoop {S P : Type} (pts : List (BoardPoint S P)) (c : StoneType) :
    (stack checked : List Nat) → Bool
  | [], checked => true
  | i :: rest, checked =>
    let ty := tyAt pts i
    if ty = StoneType.Empty then false
    else if ty = c ∧ i ∉ checked then
      selfCaptureLoop pts c ((nbrsAt pts i).reverse ++ rest) (checked ++ [i])
    else
      selfCaptureLoop pts c rest checked
  termination_by stack checked =>
    (((Finset.range pts.length).filter
        (fun v => tyAt pts v = c ∧ v ∉ checked)).card, stack.length)
  decreasing_by
  · apply Prod.Lex.left
    rename_i hne hcond
    apply Finset.card_lt_card
    have hilt : i < pts.length := by
      by_contra hge
      have hnone : pts.get? i = none := List.get?_eq_none.mpr (Nat.le_of_not_lt hge)
      have hemp : tyAt pts i = StoneType.Empty := by
        unfold tyAt
        rw [hnone]
        rfl
      exact hne hemp
    constructor
    · intro v hv
      simp only [Finset.mem_filter, Finset.mem_range, List.mem_append,
        List.mem_singleton] at hv ⊢
      exact ⟨hv.1, hv.2.1, fun hc => hv.2.2 (Or.inl hc)⟩
    · intro hsub
      have hmem := hsub (by
        simp only [Finset.mem_filter, Finset.mem_range]
        exact ⟨hilt, hcond.1, hcond.2⟩)
      rw [Finset.mem_filter] at hmem
      exact hmem.2.2 (by simp)
  · apply Prod.Lex.right
    simp

/-- The `'outer: for start_idx in start_point.neighbors` loop of
fn update_captures (src/game/mod.rs:251-274): run one flood-fill branch per
opposing-colored neighbor and concatenate (`captured_idxs.append`) the checked
lists of the branches that exhausted. -/
def collectCaptures {S P : Type} (pts : List (BoardPoint S P)) (c : StoneType) :
    List Nat → List Nat → List Nat
  | [], acc => acc
  | n :: ns, acc =>
    if tyAt pts n ≠ c then collectCaptures pts c ns acc
    else
      match captureSearch pts c [n] [] with
      | none => collectCaptures pts c ns acc
      | some checked => collectCaptures pts c ns (acc ++ checked)

/-- self.points[i].ty = t at one index (no-op out of range; always in range in
Rust). -/
def setTyList {S P : Type} : List (BoardPoint S P) → Nat → StoneType →
    List (BoardPoint S P)
  | [], _, _ => []
  | p :: ps, 0, t => { p with ty := t } :: ps
  | p :: ps, m + 1, t => p :: setTyList ps m t

/-- The `for i in captured_idxs.iter()` loop (src/game/mod.rs:276-279). -/
def setCaptured {S P : Type} (pts : List (BoardPoint S P)) :
    List Nat → List (BoardPoint S P)
  | [] => pts
  | i :: is => setCaptured (setTyList pts i StoneType.Empty) is

/-- fn update_captures (src/game/mod.rs:243-282): returns the state with all
captured stones cleared, and whether any capture occurred
(`!captured_idxs.is_empty()`). -/
def GameState.updateCaptures {S P : Type} (game : GameState S P) (pidx : Nat) :
    GameState S P × Bool :=
  let c := oppColor game.turn
  let capturedIdxs := collectCaptures game.board.points c (nbrsAt game.board.points pidx) []
  let pts' := setCaptured game.board.points capturedIdxs
  ({ game with board := { game.board with points := pts' } }, !capturedIdxs.isEmpty)

/-- fn is_self_capture (src/game/mod.rs:284-305). -/
def GameState.isSelfCapture {S P : Type} (game : GameState S P) (pidx : Nat) : Bool :=
  selfCaptureLoop game.board.points (ownColor game.turn) [pidx] []

/-- Set the stone at point `i` of the game's board. -/
def GameState.setPointTy {S P : Type} (game : GameState S P) (i : Nat) (t : StoneType) :
    GameState S P :=
  { game with board := { game.board with points := setTyList game.board.points i t } }

/-- fn try_select_point (src/game/mod.rs:307-340): resolve the click to a
point within STONE_RADIUS; on an Empty point place the stone, resolve
captures, and only if nothing was captured run the self-capture check
(rejection reverts the point); an accepted move saves a history snapshot. -/
def GameState.trySelectPoint {S P : Type} (g : Geom S P) (game : GameState S P)
    (pos : P) : GameState S P × Bool :=
  let i := game.board.findPoint g pos STONE_RADIUS
  if 0 ≤ i then
    match tyAt game.board.points i.toNat with
    | StoneType.Empty =>
      let game1 := game.setPointTy i.toNat (ownColor game.turn)
      let pr := game1.updateCaptures i.toNat
      if !pr.2 then
        if pr.1.isSelfCapture i.toNat then (pr.1.setPointTy i.toNat StoneType.Empty, false)
        else ({ pr.1 with board := pr.1.board.saveMove }, true)
      else ({ pr.1 with board := pr.1.board.saveMove }, true)
    | _ => (game, false)
  else (game, false)

/-- match self.turn { Black => White, White => Black } (src/game/mod.rs:344-347). -/
def flipTurn : Turn → Turn
  | Turn.Black => Turn.White
  | Turn.White => Turn.Black

/-- pub fn select_point (src/game/mod.rs:342-350). -/
def GameState.selectPoint {S P : Type} (g : Geom S P) (game : GameState S P)
    (pos : P) : GameState S P :=
  let pr := game.trySelectPoint g pos
  if pr.2 then { pr.1 with turn := flipTurn pr.1.turn, needs_render := true }
  else pr.1

/-- pub fn check_hover_point (src/game/mod.rs:352-371). -/
def GameState.checkHoverPoint {S P : Type} (g : Geom S P) (game : GameState S P)
    (maybePos : Option P) : GameState S P × Option (P × Int) :=
  match maybePos with
  | some pos =>
    let h := game.board.findPoint g pos STONE_RADIUS
    let game' := { game with hover_idx := h }
    if 0 ≤ h then (game', some (posAt g game.board.points h.toNat, h))
    else (game', none)
  | none => ({ game with hover_idx := -1 }, none)

/-- Feed a sequence of click positions to select_point, also counting how many
of the attempts were accepted. -/
def playCount {S P : Type} (g : Geom S P) (game : GameState S P) :
    List P → GameState S P × Nat
  | [] => (game, 0)
  | p :: ps =>
    let acc := (game.trySelectPoint g p).2
    let res := playCount g (game.selectPoint g p) ps
    (res.1, res.2 + (if acc then 1 else 0))

/-! ## Spinor algebra (src/geometry/euclidian.rs, src/geometry/hyperbolic.rs)

f64 components are modelled by `ℚ`; the identities proved are exact, hence
hold within every tolerance. -/

/-- struct PointEuclidian. -/
structure PointEuclidian where
  x : ℚ
  y : ℚ
  deriving DecidableEq, Repr

/-- struct SpinorEuclidian. -/
structure SpinorEuclidian where
  s : ℚ
  xy : ℚ
  yw : ℚ
  wx : ℚ
  deriving DecidableEq, Repr

/-- impl Mul for SpinorEuclidian (src/geometry/euclidian.rs:207-218); `a.mul b`
is the Rust `a * b` (self = a, rhs = b). -/
def SpinorEuclidian.mul (a b : SpinorEuclidian) : SpinorEuclidian :=
  { s := b.s * a.s - b.xy * a.xy,
    xy := b.xy * a.s + b.s * a.xy,
    yw := b.yw * a.s + b.wx * a.xy + b.s * a.yw - b.xy * a.wx,
    wx := b.wx * a.s - b.yw * a.xy + b.xy * a.yw + b.s * a.wx }

/-- fn reverse (src/geometry/euclidian.rs:105-112). -/
def SpinorEuclidian.reverse (g : SpinorEuclidian) : SpinorEuclidian :=
  { s := g.s, xy := -g.xy, yw := -g.yw, wx := -g.wx }

/-- fn magnitude2 (src/geometry/euclidian.rs:114-116). -/
def SpinorEuclidian.magnitude2 (g : SpinorEuclidian) : ℚ :=
  g.s * g.s + g.xy * g.xy

/-- fn apply (src/geometry/euclidian.rs:93-103); the debug assertion on unit
magnitude is dropped (the claims supply it as a hypothesis). -/
def SpinorEuclidian.app (g : SpinorEuclidian) (v : PointEuclidian) : PointEuclidian :=
  { x := (g.s * g.s - g.xy * g.xy) * v.x + (2 * g.s * g.xy) * v.y
          + (-2 * g.s * g.wx + 2 * g.yw * g.xy),
    y := (-2 * g.s * g.xy) * v.x + (g.s * g.s - g.xy * g.xy) * v.y
          + (2 * g.s * g.yw + 2 * g.wx * g.xy) }

/-- impl One (src/geometry/euclidian.rs:195-204). -/
def SpinorEuclidian.one : SpinorEuclidian :=
  { s := 1, xy := 0, yw := 0, wx := 0 }

/-- struct PointHyperbolic (projective coordinates). -/
structure PointHyperbolic where
  x : ℚ
  y : ℚ
  w : ℚ
  deriving DecidableEq, Repr

/-- struct SpinorHyperbolic. -/
structure SpinorHyperbolic where
  s : ℚ
  xy : ℚ
  yw : ℚ
  wx : ℚ
  deriving DecidableEq, Repr

/-- impl Mul for SpinorHyperbolic (src/geometry/hyperbolic.rs:278-289). -/
def SpinorHyperbolic.mul (a b : SpinorHyperbolic) : SpinorHyperbolic :=
  { s := a.s * b.s - a.xy * b.xy + a.yw * b.yw + a.wx * b.wx,
    xy := a.s * b.xy + a.xy * b.s + a.yw * b.wx - a.wx * b.yw,
    yw := a.s * b.yw + a.yw * b.s - a.wx * b.xy + a.xy * b.wx,
    wx := a.s * b.wx + a.wx * b.s - a.xy * b.yw + a.yw * b.xy }

/-- fn reverse (src/geometry/hyperbolic.rs:122-129). -/
def SpinorHyperbolic.reverse (g : SpinorHyperbolic) : SpinorHyperbolic :=
  { s := g.s, xy := -g.xy, yw := -g.yw, wx := -g.wx }

/-- fn magnitude2 (src/geometry/hyperbolic.rs:131-133). -/
def SpinorHyperbolic.magnitude2 (g : SpinorHyperbolic) : ℚ :=
  g.s * g.s + g.xy * g.xy - g.yw * g.yw - g.wx * g.wx

/-- fn apply (src/geometry/hyperbolic.rs:111-120): multiply (x, y, 0, w) by
into_mat4's matrix (src/geometry/hyperbolic.rs:161-179; cgmath's Matrix4::new
is column-major and the code transposes, so the entries as written are the
rows of the final matrix) and read off x, y, w. -/
def SpinorHyperbolic.app (g : SpinorHyperbolic) (v : PointHyperbolic) : PointHyperbolic :=
  { x := (g.s * g.s + g.wx * g.wx - g.yw * g.yw - g.xy * g.xy) * v.x
          + (2 * g.s * g.xy - 2 * g.wx * g.yw) * v.y
          + (-2 * g.s * g.wx + 2 * g.yw * g.xy) * v.w,
    y := (-2 * g.s * g.xy - 2 * g.wx * g.yw) * v.x
          + (g.s * g.s - g.wx * g.wx + g.yw * g.yw - g.xy * g.xy) * v.y
          + (2 * g.s * g.yw + 2 * g.wx * g.xy) * v.w,
    w := (-2 * g.s * g.wx - 2 * g.yw * g.xy) * v.x
          + (2 * g.s * g.yw - 2 * g.wx * g.xy) * v.y
          + (g.s * g.s + g.wx * g.wx + g.yw * g.yw + g.xy * g.xy) * v.w }

/-- impl One (src/geometry/hyperbolic.rs:266-275). -/
def SpinorHyperbolic.one : SpinorHyperbolic :=
  { s := 1, xy := 0, yw := 0, wx := 0 }

/-! ## Theorems: spinor algebra (claim C9) -/

/-- Applying a product applies the right factor first: the "apply
right-then-left" composition convention.  The Euclidean `apply` represents the
motion faithfully only on the unit-magnitude manifold (the Rust code asserts
exactly this), so the right factor is assumed unit. -/
theorem SpinorEuclidian.app_mul_e (a b : SpinorEuclidian) (v : PointEuclidian)
    (hb : b.magnitude2 = 1) :
    (a.mul b).app v = a.app (b.app v) := by
  simp only [SpinorEuclidian.magnitude2] at hb
  show PointEuclidian.mk _ _ = PointEuclidian.mk _ _
  simp only [SpinorEuclidian.mul, SpinorEuclidian.app, PointEuclidian.mk.injEq]
  constructor
  · linear_combination (-2 * a.s * a.wx + 2 * a.xy * a.yw) * hb
  · linear_combination (2 * a.s * a.yw + 2 * a.wx * a.xy) * hb

/-- Same composition identity for the hyperbolic implementation (exact, no
unit assumption needed). -/
theorem SpinorHyperbolic.app_mul_h (a b : SpinorHyperbolic) (v : PointHyperbolic) :
    (a.mul b).app v = a.app (b.app v) := by
  show PointHyperbolic.mk _ _ _ = PointHyperbolic.mk _ _ _
  simp only [SpinorHyperbolic.mul, SpinorHyperbolic.app, PointHyperbolic.mk.injEq]
  refine ⟨by ring, by ring, by ring⟩

/-- reverse is the group inverse of a unit Euclidean spinor. -/
theorem SpinorEuclidian.reverse_mul_e (g : SpinorEuclidian) (h : g.magnitude2 = 1) :
    g.reverse.mul g = SpinorEuclidian.one := by
  simp only [SpinorEuclidian.magnitude2] at h
  simp only [SpinorEuclidian.mul, SpinorEuclidian.reverse, SpinorEuclidian.one,
    SpinorEuclidian.mk.injEq]
  refine ⟨by linear_combination h, by ring, by ring, by ring⟩

/-- reverse is the group inverse of a unit hyperbolic spinor. -/
theorem SpinorHyperbolic.reverse_mul_h (g : SpinorHyperbolic) (h : g.magnitude2 = 1) :
    g.reverse.mul g = SpinorHyperbolic.one := by
  simp only [SpinorHyperbolic.magnitude2] at h
  simp only [SpinorHyperbolic.mul, SpinorHyperbolic.reverse, SpinorHyperbolic.one,
    SpinorHyperbolic.mk.injEq]
  refine ⟨by linear_combination h, by ring, by ring, by ring⟩

/-- The identity spinor acts as the identity on Euclidean points. -/
theorem SpinorEuclidian.app_one_e (v : PointEuclidian) :
    SpinorEuclidian.one.app v = v := by
  show PointEuclidian.mk _ _ = _
  simp only [SpinorEuclidian.app, SpinorEuclidian.one]
  cases v
  simp only [PointEuclidian.mk.injEq]
  constructor <;> ring

/-- The identity spinor acts as the identity on hyperbolic points. -/
theorem SpinorHyperbolic.app_one_h (v : PointHyperbolic) :
    SpinorHyperbolic.one.app v = v := by
  show PointHyperbolic.mk _ _ _ = _
  simp only [SpinorHyperbolic.app, SpinorHyperbolic.one]
  cases v
  simp only [PointHyperbolic.mk.injEq]
  refine ⟨by ring, by ring, by ring⟩

/-- C9: for every isometry g of unit magnitude, composing g.reverse() with g
yields the identity, and applying g and then g.reverse() maps every point back
to itself, in both the flat and the hyperbolic implementation.  Components are
modelled exactly (over ℚ), so the identities hold exactly, in particular
within the 1e-6 tolerance of the claim. -/
theorem spinor_reverse_roundtrip (gE : SpinorEuclidian) (vE : PointEuclidian)
    (gH : SpinorHyperbolic) (vH : PointHyperbolic)
    (hE : gE.magnitude2 = 1) (hH : gH.magnitude2 = 1) :
    gE.reverse.mul gE = SpinorEuclidian.one ∧
    gE.reverse.app (gE.app vE) = vE ∧
    gH.reverse.mul gH = SpinorHyperbolic.one ∧
    gH.reverse.app (gH.app vH) = vH := by
  refine ⟨SpinorEuclidian.reverse_mul_e gE hE, ?_, SpinorHyperbolic.reverse_mul_h gH hH, ?_⟩
  · rw [← SpinorEuclidian.app_mul_e gE.reverse gE vE hE, SpinorEuclidian.reverse_mul_e gE hE,
      SpinorEuclidian.app_one_e]
  · rw [← SpinorHyperbolic.app_mul_h, SpinorHyperbolic.reverse_mul_h gH hH,
      SpinorHyperbolic.app_one_h]

/-- Witness for C9 at concrete unit spinors. -/
theorem spinor_reverse_roundtrip_witness :
    (SpinorEuclidian.mk (3/5) (4/5) 2 (-1)).magnitude2 = 1 ∧
    (SpinorHyperbolic.mk (5/4) 0 0 (3/4)).magnitude2 = 1 ∧
    ((SpinorEuclidian.mk (3/5) (4/5) 2 (-1)).reverse.mul
        (SpinorEuclidian.mk (3/5) (4/5) 2 (-1)) = SpinorEuclidian.one ∧
      (SpinorEuclidian.mk (3/5) (4/5) 2 (-1)).reverse.app
        ((SpinorEuclidian.mk (3/5) (4/5) 2 (-1)).app (PointEuclidian.mk 2 9)) =
          PointEuclidian.mk 2 9 ∧
      (SpinorHyperbolic.mk (5/4) 0 0 (3/4)).reverse.mul
        (SpinorHyperbolic.mk (5/4) 0 0 (3/4)) = SpinorHyperbolic.one ∧
      (SpinorHyperbolic.mk (5/4) 0 0 (3/4)).reverse.app
        ((SpinorHyperbolic.mk (5/4) 0 0 (3/4)).app (PointHyperbolic.mk 1 2 4)) =
          PointHyperbolic.mk 1 2 4) :=
  ⟨by norm_num [SpinorEuclidian.magnitude2], by norm_num [SpinorHyperbolic.magnitude2],
    spinor_reverse_roundtrip (SpinorEuclidian.mk (3/5) (4/5) 2 (-1))
      (PointEuclidian.mk 2 9) (SpinorHyperbolic.mk (5/4) 0 0 (3/4))
      (PointHyperbolic.mk 1 2 4) (by norm_num [SpinorEuclidian.magnitude2])
      (by norm_num [SpinorHyperbolic.magnitude2])⟩

/-! ## Theorems: history machinery (claims C6, C5, C4) -/

/-- restoreTypes preserves the number of points. -/
theorem restoreTypes_length {S P : Type} :
    ∀ (ps : List (BoardPoint S P)) (ts : List StoneType),
      (restoreTypes ps ts).length = ps.length
  | [], ts => by cases ts <;> rfl
  | p :: ps, [] => rfl
  | p :: ps, t :: ts => by
    show (restoreTypes ps ts).length + 1 = ps.length + 1
    rw [restoreTypes_length ps ts]

/-- Restoring a snapshot of the right length makes it the current stone
state. -/
theorem map_ty_restoreTypes {S P : Type} :
    ∀ (ps : List (BoardPoint S P)) (ts : List StoneType),
      ts.length = ps.length → (restoreTypes ps ts).map (fun p => p.ty) = ts
  | [], [], _ => rfl
  | [], t :: ts, h => by simp at h
  | p :: ps, [], h => by simp at h
  | p :: ps, t :: ts, h => by
    show t :: (restoreTypes ps ts).map (fun p => p.ty) = t :: ts
    exact congrArg _ (map_ty_restoreTypes ps ts (by simpa using h))

/-- C6: move_history with a cursor-plus-offset outside [0, history length) is
a silent no-op (board completely unchanged); otherwise it shifts the cursor by
the offset, keeps the history, and restores every point's stone state from the
snapshot at the new cursor. -/
theorem moveHistory_spec {S P : Type} (b : Board S P) (offset : Int) :
    ((b.history_idx + offset < 0 ∨ (b.history.length : Int) ≤ b.history_idx + offset) →
      b.moveHistory offset = b) ∧
    (0 ≤ b.history_idx + offset → b.history_idx + offset < (b.history.length : Int) →
      (b.history.getD (b.history_idx + offset).toNat []).length = b.points.length →
      (b.moveHistory offset).history_idx = b.history_idx + offset ∧
      (b.moveHistory offset).history = b.history ∧
      (b.moveHistory offset).currentTypes =
        b.history.getD (b.history_idx + offset).toNat []) := by
  constructor
  · intro hout
    unfold Board.moveHistory
    exact if_pos hout
  · intro h0 h1 hlen
    have hin : ¬(b.history_idx + offset < 0 ∨
        (b.history.length : Int) ≤ b.history_idx + offset) := by omega
    have heq : b.moveHistory offset =
        { b with history_idx := b.history_idx + offset,
                 points := restoreTypes b.points
                   (b.history.getD (b.history_idx + offset).toNat []) } := by
      unfold Board.moveHistory
      exact if_neg hin
    rw [heq]
    refine ⟨rfl, rfl, ?_⟩
    exact map_ty_restoreTypes b.points _ hlen

/-- A trivial parameter record for concrete test boards. -/
def tpTest : TilingParameters :=
  { edge_count := 0, sides := 0, around_vertex := 1, angle := 0, distance := 0,
    link_len := 0, stone_scale := 0 }

/-- A one-point board with a two-snapshot history sitting at cursor 1, used to
exercise move_history concretely. -/
def bHist : Board Unit Unit :=
  { points := [{ pos := (), transform := (), relative_transform := (),
                 neighbors := [], ty := StoneType.Black, reversed := false }],
    links := [], history := [[StoneType.Empty], [StoneType.Black]],
    history_idx := 1, tiling_parameters := tpTest }

/-- Witness for C6: on the concrete board, offset -1 is in range and restores
the first snapshot; offset 5 is out of range and is a no-op. -/
theorem moveHistory_spec_witness :
    ((bHist.moveHistory (-1)).history_idx = bHist.history_idx + (-1) ∧
      (bHist.moveHistory (-1)).history = bHist.history ∧
      (bHist.moveHistory (-1)).currentTypes =
        bHist.history.getD (bHist.history_idx + (-1)).toNat []) ∧
    bHist.moveHistory 5 = bHist := by
  constructor
  · exact (moveHistory_spec bHist (-1)).2 (by decide) (by decide) (by decide)
  · exact (moveHistory_spec bHist 5).1 (by decide)

/-! ## Theorems: capture engine (claims C1, C2, C3) -/

/-- Graph adjacency of the board: `b` appears in the neighbor list of `a`. -/
def Adj {S P : Type} (pts : List (BoardPoint S P)) (a b : Nat) : Prop :=
  b ∈ nbrsAt pts a

/-- One step inside a same-colored group: both ends hold color `c` and are
adjacent. -/
def CapStep {S P : Type} (pts : List (BoardPoint S P)) (c : StoneType) (a b : Nat) : Prop :=
  tyAt pts a = c ∧ tyAt pts b = c ∧ Adj pts a b

/-- Connectivity through stones of color `c`: the same-colored connected
component reachable from a point. -/
def CapReach {S P : Type} (pts : List (BoardPoint S P)) (c : StoneType) :
    Nat → Nat → Prop :=
  Relation.ReflTransGen (CapStep pts c)

/-- The component of `start` through color `c` has a liberty: some point of
the component has an Empty neighbor. -/
def HasLiberty {S P : Type} (pts : List (BoardPoint S P)) (c : StoneType)
    (start : Nat) : Prop :=
  ∃ j, CapReach pts c start j ∧ ∃ e, Adj pts j e ∧ tyAt pts e = StoneType.Empty

/-- Correctness of the flood-fill stack loop: from any intermediate state
satisfying the visit invariants, the search returns `none` exactly when the
component of `start` has a liberty, and otherwise returns precisely the
component of `start`. -/
theorem captureSearch_spec {S P : Type} (pts : List (BoardPoint S P)) (c : StoneType)
    (start : Nat) (hst : tyAt pts start = c) (hc : c ≠ StoneType.Empty) :
    ∀ stack checked,
      (∀ j ∈ checked, CapReach pts c start j ∧ tyAt pts j = c) →
      (∀ j ∈ stack, j = start ∨ ∃ k ∈ checked, Adj pts k j) →
      (∀ k ∈ checked, ∀ j, Adj pts k j →
        j ∈ checked ∨ j ∈ stack ∨ (tyAt pts j ≠ StoneType.Empty ∧ tyAt pts j ≠ c)) →
      (start ∈ stack ∨ start ∈ checked) →
      (captureSearch pts c stack checked = none → HasLiberty pts c start) ∧
      (∀ l, captureSearch pts c stack checked = some l →
        (∀ j, j ∈ l ↔ CapReach pts c start j) ∧ ¬ HasLiberty pts c start) := by
  intro stack checked
  induction stack, checked using captureSearch.induct pts c with
  | case1 checked =>
    intro h1 h2 h3 h4
    have hrun : captureSearch pts c [] checked = some checked := by
      rw [captureSearch]
    have hcompl : ∀ j, CapReach pts c start j → j ∈ checked := by
      intro j hr
      induction hr with
      | refl => exact h4.resolve_left (by simp)
      | tail hr' hstep ih =>
        rcases h3 _ ih _ hstep.2.2 with h | h | h
        · exact h
        · simp at h
        · exact absurd hstep.2.1 h.2
    have hnolib : ¬ HasLiberty pts c start := by
      rintro ⟨j, hreach, e, hadj, hety⟩
      rcases h3 j (hcompl j hreach) e hadj with h | h | h
      · exact hc ((h1 e h).2.symm.trans hety)
      · simp at h
      · exact h.1 hety
    constructor
    · intro hnone
      rw [hrun] at hnone
      exact absurd hnone (by simp)
    · intro l hl
      rw [hrun] at hl
      cases hl
      exact ⟨fun j => ⟨fun hj => (h1 j hj).1, hcompl j⟩, hnolib⟩
  | case2 i rest checked ty hty =>
    intro h1 h2 h3 h4
    have hty' : tyAt pts i = StoneType.Empty := hty
    have hrun : captureSearch pts c (i :: rest) checked = none := by
      rw [captureSearch]
      simp only [if_pos hty']
    have hlib : HasLiberty pts c start := by
      rcases h2 i (by simp) with h | ⟨k, hk, hadj⟩
      · have hce : c = StoneType.Empty := by
          rw [← hst, ← h]
          exact hty'
        exact absurd hce hc
      · exact ⟨k, (h1 k hk).1, i, hadj, hty'⟩
    constructor
    · intro _
      exact hlib
    · intro l hl
      rw [hrun] at hl
      exact absurd hl (by simp)
  | case3 i rest checked ty hne hcond ih =>
    intro h1 h2 h3 h4
    have hne' : ¬ tyAt pts i = StoneType.Empty := hne
    have hcond' : tyAt pts i = c ∧ i ∉ checked := hcond
    have hreachi : CapReach pts c start i := by
      rcases h2 i (by simp) with h | ⟨k, hk, hadj⟩
      · exact h ▸ Relation.ReflTransGen.refl
      · exact Relation.ReflTransGen.tail (h1 k hk).1 ⟨(h1 k hk).2, hcond'.1, hadj⟩
    have h1' : ∀ j ∈ checked ++ [i], CapReach pts c start j ∧ tyAt pts j = c := by
      intro j hj
      rcases List.mem_append.mp hj with hj | hj
      · exact h1 j hj
      · rw [List.mem_singleton.mp hj]
        exact ⟨hreachi, hcond'.1⟩
    have h2' : ∀ j ∈ (nbrsAt pts i).reverse ++ rest,
        j = start ∨ ∃ k ∈ checked ++ [i], Adj pts k j := by
      intro j hj
      rcases List.mem_append.mp hj with hj | hj
      · exact Or.inr ⟨i, by simp, List.mem_reverse.mp hj⟩
      · rcases h2 j (by simp [hj]) with h | ⟨k, hk, hadj⟩
        · exact Or.inl h
        · exact Or.inr ⟨k, by simp [hk], hadj⟩
    have h3' : ∀ k ∈ checked ++ [i], ∀ j, Adj pts k j →
        j ∈ checked ++ [i] ∨ j ∈ (nbrsAt pts i).reverse ++ rest ∨
          (tyAt pts j ≠ StoneType.Empty ∧ tyAt pts j ≠ c) := by
      intro k hk j hadj
      rcases List.mem_append.mp hk with hk | hk
      · rcases h3 k hk j hadj with h | h | h
        · exact Or.inl (by simp [h])
        · rcases List.mem_cons.mp h with h | h
          · exact Or.inl (by simp [h])
          · exact Or.inr (Or.inl (by simp [h]))
        · exact Or.inr (Or.inr h)
      · have hki : k = i := List.mem_singleton.mp hk
        subst hki
        exact Or.inr (Or.inl (List.mem_append.mpr (Or.inl (List.mem_reverse.mpr hadj))))
    have h4' : start ∈ (nbrsAt pts i).reverse ++ rest ∨ start ∈ checked ++ [i] := by
      rcases h4 with h | h
      · rcases List.mem_cons.mp h with h | h
        · exact Or.inr (by simp [h])
        · exact Or.inl (by simp [h])
      · exact Or.inr (by simp [h])
    have heq : captureSearch pts c (i :: rest) checked =
        captureSearch pts c ((nbrsAt pts i).reverse ++ rest) (checked ++ [i]) := by
      rw [captureSearch]
      simp only [if_neg hne', if_pos hcond']
    rw [heq]
    exact ih h1' h2' h3' h4'
  | case4 i rest checked ty hne hncond ih =>
    intro h1 h2 h3 h4
    have hne' : ¬ tyAt pts i = StoneType.Empty := hne
    have hncond' : ¬ (tyAt pts i = c ∧ i ∉ checked) := hncond
    have hcase : tyAt pts i ≠ c ∨ i ∈ checked := by
      by_cases hty : tyAt pts i = c
      · right
        by_contra hmem
        exact hncond' ⟨hty, hmem⟩
      · exact Or.inl hty
    have h2' : ∀ j ∈ rest, j = start ∨ ∃ k ∈ checked, Adj pts k j := by
      intro j hj
      exact h2 j (by simp [hj])
    have h3' : ∀ k ∈ checked, ∀ j, Adj pts k j →
        j ∈ checked ∨ j ∈ rest ∨ (tyAt pts j ≠ StoneType.Empty ∧ tyAt pts j ≠ c) := by
      intro k hk j hadj
      rcases h3 k hk j hadj with h | h | h
      · exact Or.inl h
      · rcases List.mem_cons.mp h with h | h
        · rcases hcase with hcase | hcase
          · exact Or.inr (Or.inr ⟨by rw [h]; exact hne', h ▸ hcase⟩)
          · exact Or.inl (h ▸ hcase)
        · exact Or.inr (Or.inl h)
      · exact Or.inr (Or.inr h)
    have h4' : start ∈ rest ∨ start ∈ checked := by
      rcases h4 with h | h
      · rcases List.mem_cons.mp h with h | h
        · rcases hcase with hcase | hcase
          · exact absurd (h ▸ hst) hcase
          · exact Or.inr (h ▸ hcase)
        · exact Or.inl h
      · exact Or.inr h
    have heq : captureSearch pts c (i :: rest) checked = captureSearch pts c rest checked := by
      rw [captureSearch]
      simp only [if_neg hne', if_neg hncond']
    rw [heq]
    exact ih h1 h2' h3' h4'

/-- One branch of update_captures, started at an opposing-colored neighbor:
`none` exactly when the component has a liberty; otherwise the checked list is
exactly the component. -/
theorem captureBranch_spec {S P : Type} (pts : List (BoardPoint S P)) (c : StoneType)
    (n : Nat) (hst : tyAt pts n = c) (hc : c ≠ StoneType.Empty) :
    (captureSearch pts c [n] [] = none ↔ HasLiberty pts c n) ∧
    (∀ l, captureSearch pts c [n] [] = some l →
      (∀ j, j ∈ l ↔ CapReach pts c n j) ∧ ¬ HasLiberty pts c n) := by
  have h := captureSearch_spec pts c n hst hc [n] []
    (by simp) (by intro j hj; exact Or.inl (List.mem_singleton.mp hj))
    (by simp) (Or.inl (by simp))
  refine ⟨⟨h.1, ?_⟩, h.2⟩
  intro hlib
  cases hres : captureSearch pts c [n] [] with
  | none => rfl
  | some l => exact absurd hlib (h.2 l hres).2

/-- The points captured by update_captures from a given neighbor list: those
in a liberty-less same-colored component reachable from an opposing-colored
neighbor. -/
def CapturedFrom {S P : Type} (pts : List (BoardPoint S P)) (c : StoneType)
    (ns : List Nat) (j : Nat) : Prop :=
  ∃ n ∈ ns, tyAt pts n = c ∧ ¬ HasLiberty pts c n ∧ CapReach pts c n j

theorem mem_collectCaptures {S P : Type} (pts : List (BoardPoint S P)) (c : StoneType)
    (hc : c ≠ StoneType.Empty) :
    ∀ (ns acc : List Nat) (j : Nat),
      j ∈ collectCaptures pts c ns acc ↔ j ∈ acc ∨ CapturedFrom pts c ns j
  | [], acc, j => by
    simp [collectCaptures, CapturedFrom]
  | n :: ns, acc, j => by
    by_cases hty : tyAt pts n = c
    · have hrw : collectCaptures pts c (n :: ns) acc =
        (match captureSearch pts c [n] [] with
          | none => collectCaptures pts c ns acc
          | some checked => collectCaptures pts c ns (acc ++ checked)) := by
        rw [collectCaptures]
        simp [hty]
      cases hres : captureSearch pts c [n] [] with
      | none =>
        have hlib : HasLiberty pts c n := (captureBranch_spec pts c n hty hc).1.mp hres
        rw [hrw, hres]
        rw [mem_collectCaptures pts c hc ns acc j]
        constructor
        · rintro (h | h)
          · exact Or.inl h
          · exact Or.inr (by
              obtain ⟨m, hm, hprops⟩ := h
              exact ⟨m, by simp [hm], hprops⟩)
        · rintro (h | h)
          · exact Or.inl h
          · obtain ⟨m, hm, hprops⟩ := h
            rcases List.mem_cons.mp hm with hm | hm
            · exact absurd hlib (hm ▸ hprops.2.1)
            · exact Or.inr ⟨m, hm, hprops⟩
      | some l =>
        have hbr := (captureBranch_spec pts c n hty hc).2 l hres
        rw [hrw, hres]
        rw [mem_collectCaptures pts c hc ns (acc ++ l) j]
        constructor
        · rintro (h | h)
          · rcases List.mem_append.mp h with h | h
            · exact Or.inl h
            · exact Or.inr ⟨n, by simp, hty, hbr.2, (hbr.1 j).mp h⟩
          · obtain ⟨m, hm, hprops⟩ := h
            exact Or.inr ⟨m, by simp [hm], hprops⟩
        · rintro (h | h)
          · exact Or.inl (List.mem_append.mpr (Or.inl h))
          · obtain ⟨m, hm, hprops⟩ := h
            rcases List.mem_cons.mp hm with hm | hm
            · exact Or.inl (List.mem_append.mpr (Or.inr ((hbr.1 j).mpr (hm ▸ hprops.2.2))))
            · exact Or.inr ⟨m, hm, hprops⟩
    · have hrw : collectCaptures pts c (n :: ns) acc = collectCaptures pts c ns acc := by
        rw [collectCaptures]
        simp [hty]
      rw [hrw, mem_collectCaptures pts c hc ns acc j]
      constructor
      · rintro (h | h)
        · exact Or.inl h
        · obtain ⟨m, hm, hprops⟩ := h
          exact Or.inr ⟨m, by simp [hm], hprops⟩
      · rintro (h | h)
        · exact Or.inl h
        · obtain ⟨m, hm, hprops⟩ := h
          rcases List.mem_cons.mp hm with hm | hm
          · exact absurd hprops.1 (hm ▸ hty)
          · exact Or.inr ⟨m, hm, hprops⟩

/-- Out-of-range stone reads are Empty. -/
theorem tyAt_out {S P : Type} (pts : List (BoardPoint S P)) (j : Nat)
    (h : pts.length ≤ j) : tyAt pts j = StoneType.Empty := by
  unfold tyAt
  rw [List.get?_eq_none.mpr h]
  rfl

/-- Stone states after a single point write. -/
theorem tyAt_setTyList {S P : Type} :
    ∀ (pts : List (BoardPoint S P)) (i : Nat) (t : StoneType) (j : Nat),
      tyAt (setTyList pts i t) j =
        if j = i ∧ i < pts.length then t else tyAt pts j
  | [], i, t, j => by
    rw [if_neg (by simp)]
    rfl
  | p :: ps, 0, t, 0 => by
    rw [if_pos ⟨rfl, by simp⟩]
    rfl
  | p :: ps, 0, t, k + 1 => by
    rw [if_neg (by omega)]
    rfl
  | p :: ps, m + 1, t, 0 => by
    rw [if_neg (by omega)]
    rfl
  | p :: ps, m + 1, t, k + 1 => by
    show tyAt (setTyList ps m t) k = _
    rw [tyAt_setTyList ps m t k]
    by_cases hk : k = m ∧ m < ps.length
    · rw [if_pos hk, if_pos (by
        simp only [List.length_cons]
        omega : k + 1 = m + 1 ∧ m + 1 < (p :: ps).length)]
    · rw [if_neg hk, if_neg (by
        simp only [List.length_cons]
        omega : ¬(k + 1 = m + 1 ∧ m + 1 < (p :: ps).length))]
      rfl

/-- Stone states after clearing every captured index: captured points become
Empty, everything else is untouched. -/
theorem tyAt_setCaptured {S P : Type} :
    ∀ (is : List Nat) (pts : List (BoardPoint S P)) (j : Nat),
      tyAt (setCaptured pts is) j =
        if j ∈ is then StoneType.Empty else tyAt pts j
  | [], pts, j => by simp [setCaptured]
  | i :: is, pts, j => by
    show tyAt (setCaptured (setTyList pts i StoneType.Empty) is) j = _
    rw [tyAt_setCaptured is (setTyList pts i StoneType.Empty) j]
    by_cases hj : j ∈ is
    · rw [if_pos hj, if_pos (by simp [hj])]
    · rw [if_neg hj]
      rw [tyAt_setTyList]
      by_cases hji : j = i
      · subst hji
        by_cases hlen : j < pts.length
        · rw [if_pos ⟨rfl, hlen⟩, if_pos (by simp)]
        · rw [if_neg (by omega : ¬(j = j ∧ j < pts.length)), if_pos (by simp)]
          exact tyAt_out pts j (by omega)
      · rw [if_neg (by tauto), if_neg (by simp [hji, hj])]

/-- Point `q` is captured when the current player has just been placed at
`pidx`: `q` lies in the same-colored component of some opposing-colored
neighbor of `pidx`, and that component has no liberty. -/
def CapturedByMove {S P : Type} (game : GameState S P) (pidx q : Nat) : Prop :=
  CapturedFrom game.board.points (oppColor game.turn)
    (nbrsAt game.board.points pidx) q

/-- The opposing color is never Empty. -/
theorem oppColor_ne_empty (t : Turn) : oppColor t ≠ StoneType.Empty := by
  cases t <;> simp [oppColor]

/-- Full behavior of update_captures (helper; the claim-level statement is
`updateCaptures_spec` below). -/
theorem updateCaptures_props {S P : Type} (game : GameState S P) (pidx : Nat) :
    (∀ q, CapturedByMove game pidx q →
      tyAt ((game.updateCaptures pidx).1).board.points q = StoneType.Empty) ∧
    (∀ q, ¬ CapturedByMove game pidx q →
      tyAt ((game.updateCaptures pidx).1).board.points q = tyAt game.board.points q) ∧
    ((game.updateCaptures pidx).2 = true ↔
      ∃ n ∈ nbrsAt game.board.points pidx,
        tyAt game.board.points n = oppColor game.turn ∧
        ¬ HasLiberty game.board.points (oppColor game.turn) n) := by
  set pts := game.board.points with hpts
  set c := oppColor game.turn with hcdef
  have hc : c ≠ StoneType.Empty := oppColor_ne_empty game.turn
  have hptseq : ((game.updateCaptures pidx).1).board.points =
      setCaptured pts (collectCaptures pts c (nbrsAt pts pidx) []) := rfl
  have hmem : ∀ q, q ∈ collectCaptures pts c (nbrsAt pts pidx) [] ↔
      CapturedByMove game pidx q := by
    intro q
    rw [mem_collectCaptures pts c hc (nbrsAt pts pidx) [] q]
    simp only [List.not_mem_nil, false_or]
    exact Iff.rfl
  refine ⟨?_, ?_, ?_⟩
  · intro q hq
    rw [hptseq, tyAt_setCaptured]
    rw [if_pos ((hmem q).mpr hq)]
  · intro q hq
    rw [hptseq, tyAt_setCaptured]
    rw [if_neg (fun hmem' => hq ((hmem q).mp hmem'))]
  · have hbool : (game.updateCaptures pidx).2 =
        !(collectCaptures pts c (nbrsAt pts pidx) []).isEmpty := rfl
    rw [hbool]
    cases hl : collectCaptures pts c (nbrsAt pts pidx) [] with
    | nil =>
      simp only [List.isEmpty_nil, Bool.not_true]
      constructor
      · intro h
        exact absurd h (by simp)
      · rintro ⟨n, hn, hty, hnl⟩
        have : n ∈ collectCaptures pts c (nbrsAt pts pidx) [] :=
          (hmem n).mpr ⟨n, hn, hty, hnl, Relation.ReflTransGen.refl⟩
        rw [hl] at this
        exact absurd this (by simp)
    | cons x xs =>
      simp only [List.isEmpty_cons, Bool.not_false]
      constructor
      · intro _
        have hx : x ∈ collectCaptures pts c (nbrsAt pts pidx) [] := by
          rw [hl]
          simp
        obtain ⟨n, hn, hty, hnl, _⟩ := (hmem x).mp hx
        exact ⟨n, hn, hty, hnl⟩
      · intro _
        trivial

/-- C1: update_captures visits, for each opposing-colored neighbor N of the
placed point, the same-colored connected component reachable from N; a
component with a liberty is left entirely unchanged, a component without one
is set entirely to Empty (the captured set — duplicates across branches being
harmless — is exactly the union of the liberty-less components), and the
returned flag reports whether any capture occurred. -/
theorem updateCaptures_spec {S P : Type} (game : GameState S P) (pidx : Nat) :
    (∀ q, CapturedByMove game pidx q →
      tyAt ((game.updateCaptures pidx).1).board.points q = StoneType.Empty) ∧
    (∀ q, ¬ CapturedByMove game pidx q →
      tyAt ((game.updateCaptures pidx).1).board.points q = tyAt game.board.points q) ∧
    ((game.updateCaptures pidx).2 = true ↔
      ∃ n ∈ nbrsAt game.board.points pidx,
        tyAt game.board.points n = oppColor game.turn ∧
        ¬ HasLiberty game.board.points (oppColor game.turn) n) :=
  updateCaptures_props game pidx

/-- A two-point board on which Black at point 0 has just captured the White
stone at point 1 (point 1's only neighbor is point 0). -/
def capPts : List (BoardPoint Unit Unit) :=
  [{ pos := (), transform := (), relative_transform := (), neighbors := [1],
     ty := StoneType.Black, reversed := false },
   { pos := (), transform := (), relative_transform := (), neighbors := [0],
     ty := StoneType.White, reversed := false }]

/-- Game state holding `capPts` with Black to move. -/
def gsCap : GameState Unit Unit :=
  { board := { points := capPts, links := [(0, 1)],
               history := [[StoneType.Empty, StoneType.Empty]], history_idx := 0,
               tiling_parameters := tpTest },
    turn := Turn.Black, hover_idx := -1, needs_render := true }

/-- On `capPts`, the White component of point 1 is just point 1. -/
theorem capPts_reach : ∀ j, CapReach capPts StoneType.White 1 j → j = 1 := by
  intro j hr
  rcases Relation.ReflTransGen.cases_head hr with h | ⟨b, hb, hr'⟩
  · exact h.symm
  · obtain ⟨hty1, htyb, hadj⟩ := hb
    have hb' : b ∈ ([0] : List Nat) := hadj
    have hb0 : b = 0 := List.mem_singleton.mp hb'
    rw [hb0] at htyb
    exact absurd htyb (by decide)

/-- On `capPts`, the White stone at point 1 has no liberty. -/
theorem capPts_noLib : ¬ HasLiberty capPts StoneType.White 1 := by
  rintro ⟨j, hreach, e, hadj, hety⟩
  have hj := capPts_reach j hreach
  subst hj
  have he : e ∈ ([0] : List Nat) := hadj
  have he0 : e = 0 := List.mem_singleton.mp he
  rw [he0] at hety
  exact absurd hety (by decide)

/-- Witness for C1: on the concrete two-point board the White stone is
captured (set to Empty) and the capture flag is reported. -/
theorem updateCaptures_spec_witness :
    CapturedByMove gsCap 0 1 ∧
    tyAt ((gsCap.updateCaptures 0).1).board.points 1 = StoneType.Empty ∧
    (gsCap.updateCaptures 0).2 = true := by
  have hcap : CapturedByMove gsCap 0 1 :=
    ⟨1, by decide, by decide, capPts_noLib, Relation.ReflTransGen.refl⟩
  refine ⟨hcap, (updateCaptures_spec gsCap 0).1 1 hcap, ?_⟩
  exact (updateCaptures_spec gsCap 0).2.2.mpr ⟨1, by decide, by decide, capPts_noLib⟩

/-- When update_captures reports no capture, it changed nothing. -/
theorem updateCaptures_of_not_captured {S P : Type} (game : GameState S P) (i : Nat)
    (h : (game.updateCaptures i).2 = false) : (game.updateCaptures i).1 = game := by
  have hl : collectCaptures game.board.points (oppColor game.turn)
      (nbrsAt game.board.points i) [] = [] := by
    have hb : (!(collectCaptures game.board.points (oppColor game.turn)
        (nbrsAt game.board.points i) []).isEmpty) = false := h
    cases hl' : collectCaptures game.board.points (oppColor game.turn)
        (nbrsAt game.board.points i) [] with
    | nil => rfl
    | cons x xs =>
      rw [hl'] at hb
      simp at hb
  show ({ game with board := { game.board with
      points := setCaptured game.board.points (collectCaptures game.board.points
        (oppColor game.turn) (nbrsAt game.board.points i) []) } }) = game
  rw [hl]
  rfl

/-- C2: on an empty point, opponent-capture detection runs first; whenever it
captures at least one stone the move is accepted — the result is exactly the
capture-resolved state plus a history snapshot — so the self-capture check
never influences the outcome (a move capturing stones to create its own
liberty is legal). -/
theorem capture_runs_before_selfcapture {S P : Type} (g : Geom S P)
    (game : GameState S P) (pos : P) (i : Nat)
    (hfind : game.board.findPoint g pos STONE_RADIUS = (i : Int))
    (hempty : tyAt game.board.points i = StoneType.Empty)
    (hcap : ((game.setPointTy i (ownColor game.turn)).updateCaptures i).2 = true) :
    game.trySelectPoint g pos =
      ({ ((game.setPointTy i (ownColor game.turn)).updateCaptures i).1 with
          board := ((game.setPointTy i (ownColor game.turn)).updateCaptures i).1.board.saveMove },
        true) := by
  have h0 : (0 : Int) ≤ (i : Int) := Int.natCast_nonneg i
  simp only [GameState.trySelectPoint, hfind, h0, if_true, Int.toNat_natCast, hempty,
    hcap, Bool.not_true, Bool.false_eq_true, if_false]

/-- setTyList at the same index twice keeps only the second write. -/
theorem setTyList_setTyList {S P : Type} :
    ∀ (pts : List (BoardPoint S P)) (i : Nat) (t t' : StoneType),
      setTyList (setTyList pts i t) i t' = setTyList pts i t'
  | [], _, _, _ => rfl
  | p :: ps, 0, t, t' => rfl
  | p :: ps, m + 1, t, t' => by
    show p :: setTyList (setTyList ps m t) m t' = p :: setTyList ps m t'
    rw [setTyList_setTyList ps m t t']

/-- Writing back the stone already stored is a no-op. -/
theorem setTyList_eq_self {S P : Type} :
    ∀ (pts : List (BoardPoint S P)) (i : Nat) (t : StoneType),
      tyAt pts i = t → i < pts.length → setTyList pts i t = pts
  | [], i, t, _, hlt => by simp at hlt
  | p :: ps, 0, t, hty, _ => by
    show ({ p with ty := t } :: ps) = p :: ps
    have : p.ty = t := hty
    rw [← this]
  | p :: ps, m + 1, t, hty, hlt => by
    show p :: setTyList ps m t = p :: ps
    rw [setTyList_eq_self ps m t hty (by simpa using hlt)]

/-- A stone is only ever read at a valid index when its type is not Empty. -/
theorem lt_length_of_tyAt_ne_empty {S P : Type} (pts : List (BoardPoint S P))
    (i : Nat) (h : tyAt pts i ≠ StoneType.Empty) : i < pts.length := by
  by_contra hge
  exact h (tyAt_out pts i (by omega))

/-- The own color is never Empty. -/
theorem ownColor_ne_empty (t : Turn) : ownColor t ≠ StoneType.Empty := by
  cases t <;> simp [ownColor]

/-- C3: an empty-point move that captures nothing and whose own-color
flood-fill finds no liberty is rejected: select_point returns the game
completely unchanged (the placed stone is reverted, no other stone state
changes, the turn does not advance, and no history snapshot is pushed). -/
theorem selfcapture_rejected {S P : Type} (g : Geom S P)
    (game : GameState S P) (pos : P) (i : Nat)
    (hfind : game.board.findPoint g pos STONE_RADIUS = (i : Int))
    (hempty : tyAt game.board.points i = StoneType.Empty)
    (hlen : i < game.board.points.length)
    (hnocap : ((game.setPointTy i (ownColor game.turn)).updateCaptures i).2 = false)
    (hself : (((game.setPointTy i (ownColor game.turn)).updateCaptures i).1).isSelfCapture i
      = true) :
    game.selectPoint g pos = game := by
  have h0 : (0 : Int) ≤ (i : Int) := Int.natCast_nonneg i
  have hpr1 : ((game.setPointTy i (ownColor game.turn)).updateCaptures i).1 =
      game.setPointTy i (ownColor game.turn) :=
    updateCaptures_of_not_captured _ i hnocap
  have htry : game.trySelectPoint g pos =
      ((((game.setPointTy i (ownColor game.turn)).updateCaptures i).1).setPointTy i
        StoneType.Empty, false) := by
    simp only [GameState.trySelectPoint, hfind, h0, if_true, Int.toNat_natCast, hempty,
      hnocap, Bool.not_false, if_true, hself]
  have hrevert : ((((game.setPointTy i (ownColor game.turn)).updateCaptures i).1).setPointTy i
      StoneType.Empty) = game := by
    rw [hpr1]
    show ({ game with board := { game.board with
        points := setTyList (setTyList game.board.points i (ownColor game.turn)) i
          StoneType.Empty } }) = game
    rw [setTyList_setTyList, setTyList_eq_self game.board.points i StoneType.Empty hempty hlen]
  simp [GameState.selectPoint, htry, hrevert]

/-- The degenerate geometry used for concrete game-logic witnesses: all
distances are 0, so every query resolves to point 0. -/
def gU : Geom Unit Unit :=
  { one := (), mul := fun _ _ => (), reverse := fun _ => (),
    normalize := fun _ => (), app := fun _ _ => (), zero := (),
    dist := fun _ _ => 0, translation := fun _ _ => () }

/-- The two-point board of `gsCap` before Black plays at point 0. -/
def gsPre : GameState Unit Unit :=
  { board := { points := [{ pos := (), transform := (), relative_transform := (),
                            neighbors := [1], ty := StoneType.Empty, reversed := false },
                          { pos := (), transform := (), relative_transform := (),
                            neighbors := [0], ty := StoneType.White, reversed := false }],
               links := [(0, 1)], history := [[StoneType.Empty, StoneType.Empty]],
               history_idx := 0, tiling_parameters := tpTest },
    turn := Turn.Black, hover_idx := -1, needs_render := true }

/-- Placing Black at point 0 of `gsPre` yields `gsCap`. -/
theorem gsPre_place : gsPre.setPointTy 0 (ownColor gsPre.turn) = gsCap := rfl

/-- Witness for C2: on the concrete two-point board, Black's placement at
point 0 captures the White stone, and the move is accepted with the
capture-resolved state saved. -/
theorem capture_runs_before_selfcapture_witness :
    gsPre.trySelectPoint gU () =
      ({ ((gsPre.setPointTy 0 (ownColor gsPre.turn)).updateCaptures 0).1 with
          board := ((gsPre.setPointTy 0 (ownColor gsPre.turn)).updateCaptures 0).1.board.saveMove },
        true) := by
  apply capture_runs_before_selfcapture gU gsPre () 0
  · norm_num [Board.findPoint, findPointList, findPointAux, gsPre, gU, STONE_RADIUS]
  · decide
  · rw [gsPre_place]
    exact (updateCaptures_props gsCap 0).2.2.mpr ⟨1, by decide, by decide, capPts_noLib⟩

/-- A one-point board: the single point is Empty with no neighbors, so a move
there is an immediate self-capture. -/
def gsSelf : GameState Unit Unit :=
  { board := { points := [{ pos := (), transform := (), relative_transform := (),
                            neighbors := [], ty := StoneType.Empty, reversed := false }],
               links := [], history := [[StoneType.Empty]], history_idx := 0,
               tiling_parameters := tpTest },
    turn := Turn.Black, hover_idx := -1, needs_render := true }

/-- Witness for C3: playing the single point of `gsSelf` captures nothing and
has no liberty, so select_point leaves the game unchanged. -/
theorem selfcapture_rejected_witness :
    gsSelf.selectPoint gU () = gsSelf := by
  have hnocap : ((gsSelf.setPointTy 0 (ownColor gsSelf.turn)).updateCaptures 0).2 = false := by
    decide
  apply selfcapture_rejected gU gsSelf () 0
  · norm_num [Board.findPoint, findPointList, findPointAux, gsSelf, gU, STONE_RADIUS]
  · decide
  · decide
  · exact hnocap
  · rw [updateCaptures_of_not_captured _ 0 hnocap]
    show selfCaptureLoop
      [{ pos := (), transform := (), relative_transform := (),
         neighbors := [], ty := StoneType.Black, reversed := false }]
      StoneType.Black [0] [] = true
    rw [selfCaptureLoop]
    show selfCaptureLoop
      [{ pos := (), transform := (), relative_transform := (),
         neighbors := [], ty := StoneType.Black, reversed := false }]
      StoneType.Black [] [0] = true
    rw [selfCaptureLoop]

/-! ## Theorems: hover lookup (claim C7) -/

/-- find_point scans every point: when nothing is within `d`, it returns -1. -/
theorem findPointAux_none {S P : Type} (g : Geom S P) (pos : P) (d : ℚ) :
    ∀ (pts : List (BoardPoint S P)) (k : Nat),
      (∀ p ∈ pts, ¬(g.dist pos p.pos ≤ d)) → findPointAux g pos d pts k = -1
  | [], k, _ => rfl
  | p :: ps, k, h => by
    show (if g.dist pos p.pos ≤ d then ((k : Nat) : Int)
          else findPointAux g pos d ps (k + 1)) = -1
    rw [if_neg (h p (by simp))]
    exact findPointAux_none g pos d ps (k + 1) (fun q hq => h q (by simp [hq]))

/-- find_point returns the index of the unique point within `d`. -/
theorem findPointAux_unique {S P : Type} (g : Geom S P) (pos : P) (d : ℚ) :
    ∀ (pts : List (BoardPoint S P)) (i k : Nat),
      i < pts.length →
      g.dist pos (posAt g pts i) ≤ d →
      (∀ j, j < pts.length → j ≠ i → ¬(g.dist pos (posAt g pts j) ≤ d)) →
      findPointAux g pos d pts k = ((k + i : Nat) : Int)
  | [], i, k, hlt, _, _ => by simp at hlt
  | p :: ps, 0, k, hlt, hin, hout => by
    have hin' : g.dist pos p.pos ≤ d := hin
    show (if g.dist pos p.pos ≤ d then ((k : Nat) : Int)
          else findPointAux g pos d ps (k + 1)) = ((k + 0 : Nat) : Int)
    rw [if_pos hin']
    rfl
  | p :: ps, m + 1, k, hlt, hin, hout => by
    have h0' : ¬(g.dist pos p.pos ≤ d) := hout 0 (by simp) (by omega)
    show (if g.dist pos p.pos ≤ d then ((k : Nat) : Int)
          else findPointAux g pos d ps (k + 1)) = ((k + (m + 1) : Nat) : Int)
    rw [if_neg h0']
    rw [findPointAux_unique g pos d ps m (k + 1) (by simpa using hlt) hin
      (fun j hj hne => hout (j + 1) (by simpa using hj) (by omega))]
    congr 1
    omega

/-- C7: check_hover_point is the tolerance-0.4 point lookup: a query within
tolerance of exactly one point returns that point's position and id; a query
beyond tolerance of every point, or a None query, returns None. -/
theorem checkHover_spec {S P : Type} (g : Geom S P) (game : GameState S P) (pos : P) :
    (∀ i, i < game.board.points.length →
      g.dist pos (posAt g game.board.points i) ≤ STONE_RADIUS →
      (∀ j, j < game.board.points.length → j ≠ i →
        ¬(g.dist pos (posAt g game.board.points j) ≤ STONE_RADIUS)) →
      (game.checkHoverPoint g (some pos)).2 =
        some (posAt g game.board.points i, (i : Int))) ∧
    ((∀ j, j < game.board.points.length →
        STONE_RADIUS < g.dist pos (posAt g game.board.points j)) →
      (game.checkHoverPoint g (some pos)).2 = none) ∧
    (game.checkHoverPoint g none).2 = none := by
  refine ⟨?_, ?_, rfl⟩
  · intro i hlt hin hout
    have hfind : game.board.findPoint g pos STONE_RADIUS = (i : Int) := by
      have h := findPointAux_unique g pos STONE_RADIUS game.board.points i 0 hlt hin hout
      simpa using h
    simp [GameState.checkHoverPoint, hfind]
  · intro hfar
    have hfind : game.board.findPoint g pos STONE_RADIUS = -1 := by
      apply findPointAux_none
      intro p hp
      obtain ⟨⟨j, hj⟩, hget⟩ := List.mem_iff_get.mp hp
      have hpos : posAt g game.board.points j = p.pos := by
        unfold posAt
        rw [List.get?_eq_get hj, hget]
        rfl
      have hd := hfar j hj
      rw [hpos] at hd
      exact not_le.mpr hd
    simp [GameState.checkHoverPoint, hfind]

/-- A two-point board at integer positions 0 and 1, for concrete hover
queries. -/
def gsHover : GameState ℤ ℤ :=
  { board := { points := [{ pos := 0, transform := 0, relative_transform := 0,
                            neighbors := [1], ty := StoneType.Empty, reversed := false },
                          { pos := 1, transform := 1, relative_transform := 1,
                            neighbors := [0], ty := StoneType.Empty, reversed := false }],
               links := [(0, 1)], history := [[StoneType.Empty, StoneType.Empty]],
               history_idx := 0, tiling_parameters := tpTest },
    turn := Turn.Black, hover_idx := -1, needs_render := true }

/-- The integer-line geometry used by concrete generation and hover
witnesses: spinors are translations of ℤ, distance is the absolute
difference. -/
def gZ : Geom ℤ ℤ :=
  { one := 0, mul := fun a b => a + b, reverse := fun a => -a,
    normalize := fun a => a, app := fun s p => s + p, zero := 0,
    dist := fun p q => ((p - q).natAbs : ℚ), translation := fun _ _ => 1 }

/-- Witness for C7: querying at 0 is within 0.4 of exactly point 0 and
resolves to it; querying at 5 is beyond 0.4 of both points and resolves to
none; a none query resolves to none. -/
theorem checkHover_spec_witness :
    (gsHover.checkHoverPoint gZ (some 0)).2 = some (0, (0 : Int)) ∧
    (gsHover.checkHoverPoint gZ (some 5)).2 = none ∧
    (gsHover.checkHoverPoint gZ none).2 = none := by
  refine ⟨?_, ?_, (checkHover_spec gZ gsHover 5).2.2⟩
  · have h := (checkHover_spec gZ gsHover 0).1 0 (by norm_num [gsHover])
      (by norm_num [gZ, posAt, gsHover, STONE_RADIUS])
      (by
        intro j hj hne
        have hj1 : j = 1 := by
          simp only [gsHover] at hj
          norm_num at hj
          omega
        subst hj1
        norm_num [gZ, posAt, gsHover, STONE_RADIUS])
    simpa [posAt, gsHover] using h
  · apply (checkHover_spec gZ gsHover 5).2.1
    intro j hj
    have hj2 : j = 0 ∨ j = 1 := by
      simp only [gsHover] at hj
      norm_num at hj
      omega
    rcases hj2 with h | h <;> subst h <;>
      norm_num [gZ, posAt, gsHover, STONE_RADIUS]

/-! ## Theorems: board generation (claims C8, C10, C4) -/

/-- Every neighbor index points at an existing point. -/
def Bounded {S P : Type} (pts : List (BoardPoint S P)) : Prop :=
  ∀ a, ∀ x ∈ nbrsAt pts a, x < pts.length

/-- Adjacency symmetry: B is in A's neighbor list iff A is in B's. -/
def SymAdj {S P : Type} (pts : List (BoardPoint S P)) : Prop :=
  ∀ a b, b ∈ nbrsAt pts a ↔ a ∈ nbrsAt pts b

theorem length_pushNeighbor {S P : Type} :
    ∀ (pts : List (BoardPoint S P)) (i v : Nat),
      (pushNeighbor pts i v).length = pts.length
  | [], _, _ => rfl
  | p :: ps, 0, v => rfl
  | p :: ps, m + 1, v => by
    show (pushNeighbor ps m v).length + 1 = ps.length + 1
    rw [length_pushNeighbor ps m v]

theorem nbrsAt_pushNeighbor {S P : Type} :
    ∀ (pts : List (BoardPoint S P)) (i v : Nat) (a : Nat),
      nbrsAt (pushNeighbor pts i v) a =
        if a = i ∧ i < pts.length then nbrsAt pts i ++ [v] else nbrsAt pts a
  | [], i, v, a => by
    rw [if_neg (by simp)]
    rfl
  | p :: ps, 0, v, 0 => by
    rw [if_pos ⟨rfl, by simp⟩]
    rfl
  | p :: ps, 0, v, k + 1 => by
    rw [if_neg (by omega)]
    rfl
  | p :: ps, m + 1, v, 0 => by
    rw [if_neg (by omega)]
    rfl
  | p :: ps, m + 1, v, k + 1 => by
    show nbrsAt (pushNeighbor ps m v) k = _
    rw [nbrsAt_pushNeighbor ps m v k]
    by_cases hk : k = m ∧ m < ps.length
    · rw [if_pos hk, if_pos (by
        simp only [List.length_cons]
        omega : k + 1 = m + 1 ∧ m + 1 < (p :: ps).length)]
      rfl
    · rw [if_neg hk, if_neg (by
        simp only [List.length_cons]
        omega : ¬(k + 1 = m + 1 ∧ m + 1 < (p :: ps).length))]
      rfl

theorem tyAt_pushNeighbor {S P : Type} :
    ∀ (pts : List (BoardPoint S P)) (i v : Nat) (a : Nat),
      tyAt (pushNeighbor pts i v) a = tyAt pts a
  | [], _, _, _ => rfl
  | p :: ps, 0, v, 0 => rfl
  | p :: ps, 0, v, k + 1 => rfl
  | p :: ps, m + 1, v, 0 => rfl
  | p :: ps, m + 1, v, k + 1 => by
    show tyAt (pushNeighbor ps m v) k = tyAt ps k
    exact tyAt_pushNeighbor ps m v k

/-- find_point either fails or returns a valid index. -/
theorem findPointAux_cases {S P : Type} (g : Geom S P) (pos : P) (d : ℚ) :
    ∀ (pts : List (BoardPoint S P)) (k : Nat),
      findPointAux g pos d pts k = -1 ∨
      ∃ j, j < pts.length ∧ findPointAux g pos d pts k = ((k + j : Nat) : Int)
  | [], k => Or.inl rfl
  | p :: ps, k => by
    have heq : findPointAux g pos d (p :: ps) k =
        (if g.dist pos p.pos ≤ d then ((k : Nat) : Int)
         else findPointAux g pos d ps (k + 1)) := rfl
    by_cases hd : g.dist pos p.pos ≤ d
    · refine Or.inr ⟨0, by simp, ?_⟩
      rw [heq, if_pos hd]
      rfl
    · rcases findPointAux_cases g pos d ps (k + 1) with h | ⟨j, hj, hja⟩
      · exact Or.inl (by rw [heq, if_neg hd]; exact h)
      · refine Or.inr ⟨j + 1, by simpa using hj, ?_⟩
        rw [heq, if_neg hd, hja]
        congr 1
        omega

/-- A nonnegative find_point result indexes an existing point. -/
theorem findPointList_lt {S P : Type} (g : Geom S P) (pts : List (BoardPoint S P))
    (pos : P) (d : ℚ) (h : 0 ≤ findPointList g pts pos d) :
    (findPointList g pts pos d).toNat < pts.length := by
  rcases findPointAux_cases g pos d pts 0 with hcase | ⟨j, hj, hja⟩
  · rw [findPointList] at h ⊢
    rw [hcase] at h
    omega
  · rw [findPointList, hja]
    simpa using hj

/-- State invariant maintained through the neighbor-scan fold of add_point:
lengths and stone states of existing points are preserved, the only new
neighbor entries are back-references `thisIdx` at the recorded indices, and
every recorded index is valid. -/
def ScanInv {S P : Type} (pts0 : List (BoardPoint S P))
    (st : List (BoardPoint S P) × List (Nat × Nat) × List Nat) : Prop :=
  st.1.length = pts0.length ∧
  (∀ a x, x ∈ nbrsAt st.1 a ↔
    (x ∈ nbrsAt pts0 a ∨ (x = pts0.length ∧ a ∈ st.2.2))) ∧
  (∀ x ∈ st.2.2, x < pts0.length) ∧
  (∀ a, tyAt st.1 a = tyAt pts0 a)

theorem addPointScan_inv {S P : Type} (g : Geom S P) (transform : S)
    (pts0 : List (BoardPoint S P)) :
    ∀ (ds : List S) (st : List (BoardPoint S P) × List (Nat × Nat) × List Nat),
      ScanInv pts0 st →
      ScanInv pts0 (addPointScan g pts0.length transform ds st)
  | [], st, hinv => hinv
  | dir :: ds, (pts, lks, nbs), hinv => by
    obtain ⟨hlen, hmem, hvalid, hty⟩ := hinv
    have hrw : addPointScan g pts0.length transform (dir :: ds) (pts, lks, nbs) =
        (let checking_pos := g.app (g.mul transform dir) g.zero
         let i := findPointList g pts checking_pos (1/10)
         if 0 ≤ i then
           addPointScan g pts0.length transform ds
             (pushNeighbor pts i.toNat pts0.length,
              lks ++ [(i.toNat, pts0.length)], nbs ++ [i.toNat])
         else addPointScan g pts0.length transform ds (pts, lks, nbs)) := rfl
    rw [hrw]
    set cp := g.app (g.mul transform dir) g.zero with hcp
    by_cases hfound : 0 ≤ findPointList g pts cp (1/10)
    · simp only [if_pos hfound]
      apply addPointScan_inv g transform pts0 ds
      set it := (findPointList g pts cp (1/10)).toNat with hit
      have hitlt : it < pts0.length := by
        rw [hit, ← hlen]
        exact findPointList_lt g pts cp (1/10) hfound
      have hitlt' : it < pts.length := by
        simp only at hlen
        omega
      refine ⟨?_, ?_, ?_, ?_⟩
      · show (pushNeighbor pts it pts0.length).length = pts0.length
        rw [length_pushNeighbor]
        exact hlen
      · intro a x
        show x ∈ nbrsAt (pushNeighbor pts it pts0.length) a ↔
          x ∈ nbrsAt pts0 a ∨ (x = pts0.length ∧ a ∈ nbs ++ [it])
        rw [nbrsAt_pushNeighbor]
        by_cases ha : a = it
        · subst ha
          rw [if_pos ⟨rfl, hitlt'⟩]
          rw [List.mem_append, List.mem_singleton, hmem it x]
          constructor
          · rintro ((h | h) | h)
            · exact Or.inl h
            · exact Or.inr ⟨h.1, List.mem_append.mpr (Or.inl h.2)⟩
            · exact Or.inr ⟨h, List.mem_append.mpr (Or.inr (by simp))⟩
          · rintro (h | h)
            · exact Or.inl (Or.inl h)
            · exact Or.inr h.1
        · rw [if_neg (fun hcon => ha hcon.1)]
          rw [hmem a x]
          constructor
          · rintro (h | h)
            · exact Or.inl h
            · exact Or.inr ⟨h.1, List.mem_append.mpr (Or.inl h.2)⟩
          · rintro (h | h)
            · exact Or.inl h
            · refine Or.inr ⟨h.1, ?_⟩
              rcases List.mem_append.mp h.2 with hm | hm
              · exact hm
              · exact absurd (List.mem_singleton.mp hm) ha
      · intro x hx
        rcases List.mem_append.mp hx with hm | hm
        · exact hvalid x hm
        · rw [List.mem_singleton.mp hm]
          exact hitlt
      · intro a
        show tyAt (pushNeighbor pts it pts0.length) a = tyAt pts0 a
        rw [tyAt_pushNeighbor]
        exact hty a
    · simp only [if_neg hfound]
      exact addPointScan_inv g transform pts0 ds (pts, lks, nbs) ⟨hlen, hmem, hvalid, hty⟩

/-- Out-of-range neighbor reads are empty. -/
theorem nbrsAt_out {S P : Type} (pts : List (BoardPoint S P)) (a : Nat)
    (h : pts.length ≤ a) : nbrsAt pts a = [] := by
  unfold nbrsAt
  rw [List.get?_eq_none.mpr h]
  rfl

theorem nbrsAt_append_lt {S P : Type} (pts : List (BoardPoint S P))
    (q : BoardPoint S P) (a : Nat) (h : a < pts.length) :
    nbrsAt (pts ++ [q]) a = nbrsAt pts a := by
  unfold nbrsAt
  rw [List.get?_append h]

theorem nbrsAt_append_eq {S P : Type} (pts : List (BoardPoint S P))
    (q : BoardPoint S P) :
    nbrsAt (pts ++ [q]) pts.length = q.neighbors := by
  unfold nbrsAt
  rw [List.get?_concat_length]
  rfl

theorem tyAt_append_lt {S P : Type} (pts : List (BoardPoint S P))
    (q : BoardPoint S P) (a : Nat) (h : a < pts.length) :
    tyAt (pts ++ [q]) a = tyAt pts a := by
  unfold tyAt
  rw [List.get?_append h]

theorem tyAt_append_eq {S P : Type} (pts : List (BoardPoint S P))
    (q : BoardPoint S P) :
    tyAt (pts ++ [q]) pts.length = q.ty := by
  unfold tyAt
  rw [List.get?_concat_length]
  rfl

/-- add_point preserves the generation invariants and extends the board by
exactly one all-Empty point, leaving history untouched; adjacency symmetry is
preserved because the new point's neighbor list and the back-references are
recorded together. -/
theorem addPoint_preserves {S P : Type} (g : Geom S P) (b : Board S P)
    (dirs revDirs : List S) (t : S) (r : Bool)
    (hB : Bounded b.points) (hS : SymAdj b.points)
    (hT : ∀ a, tyAt b.points a = StoneType.Empty) :
    Bounded (b.addPoint g dirs revDirs t r).points ∧
    SymAdj (b.addPoint g dirs revDirs t r).points ∧
    (∀ a, tyAt (b.addPoint g dirs revDirs t r).points a = StoneType.Empty) ∧
    (b.addPoint g dirs revDirs t r).points.length = b.points.length + 1 ∧
    (b.addPoint g dirs revDirs t r).history = b.history ∧
    (b.addPoint g dirs revDirs t r).history_idx = b.history_idx := by
  set n := b.points.length with hn
  have hinv : ScanInv b.points
      (addPointScan g n t (dirs ++ revDirs) (b.points, b.links, [])) := by
    apply addPointScan_inv
    refine ⟨rfl, ?_, by simp, fun a => rfl⟩
    intro a x
    simp
  set st := addPointScan g n t (dirs ++ revDirs) (b.points, b.links, []) with hst
  obtain ⟨hlen, hmem, hvalid, hty⟩ := hinv
  have hpts : (b.addPoint g dirs revDirs t r).points =
      st.1 ++ [{ pos := g.app t g.zero, transform := t, relative_transform := t,
                 neighbors := st.2.2, ty := StoneType.Empty, reversed := r }] := rfl
  have hlen' : (b.addPoint g dirs revDirs t r).points.length = n + 1 := by
    rw [hpts, List.length_append, hlen]
    rfl
  have hchar : ∀ a x, x ∈ nbrsAt (b.addPoint g dirs revDirs t r).points a ↔
      (x ∈ nbrsAt b.points a ∨ (x = n ∧ a ∈ st.2.2) ∨ (a = n ∧ x ∈ st.2.2)) := by
    intro a x
    rcases Nat.lt_trichotomy a n with ha | ha | ha
    · rw [hpts, nbrsAt_append_lt st.1 _ a (by omega), hmem a x]
      constructor
      · rintro (h | h)
        · exact Or.inl h
        · exact Or.inr (Or.inl h)
      · rintro (h | h | h)
        · exact Or.inl h
        · exact Or.inr h
        · omega
    · subst ha
      have heq2 : nbrsAt (b.addPoint g dirs revDirs t r).points n = st.2.2 := by
        rw [hpts]
        have hsl : st.1.length = n := hlen
        rw [← hsl, nbrsAt_append_eq]
      rw [heq2]
      constructor
      · intro h
        exact Or.inr (Or.inr ⟨rfl, h⟩)
      · rintro (h | h | h)
        · rw [nbrsAt_out b.points n (by omega)] at h
          simp at h
        · exact absurd (hvalid n h.2) (by omega)
        · exact h.2
    · have hout' : nbrsAt (b.addPoint g dirs revDirs t r).points a = [] := by
        apply nbrsAt_out
        omega
      rw [hout']
      constructor
      · intro h
        simp at h
      · rintro (h | h | h)
        · rw [nbrsAt_out b.points a (by omega)] at h
          simp at h
        · exact absurd (hvalid a h.2) (by omega)
        · omega
  refine ⟨?_, ?_, ?_, hlen', rfl, rfl⟩
  · intro a x hx
    rw [hlen']
    rcases (hchar a x).mp hx with h | h | h
    · exact Nat.lt_succ_of_lt (hB a x h)
    · omega
    · exact Nat.lt_succ_of_lt (hvalid x h.2)
  · intro a c
    rw [hchar a c, hchar c a]
    constructor
    · rintro (h | h | h)
      · exact Or.inl ((hS a c).mp h)
      · exact Or.inr (Or.inr h)
      · exact Or.inr (Or.inl h)
    · rintro (h | h | h)
      · exact Or.inl ((hS a c).mpr h)
      · exact Or.inr (Or.inr h)
      · exact Or.inr (Or.inl h)
  · intro a
    rcases Nat.lt_trichotomy a n with ha | ha | ha
    · rw [hpts, tyAt_append_lt st.1 _ a (by omega), hty a]
      exact hT a
    · subst ha
      rw [hpts]
      have hsl : st.1.length = n := hlen
      rw [← hsl, tyAt_append_eq]
    · apply tyAt_out
      omega

/-- Invariant maintained across board generation: neighbor indices valid,
adjacency symmetric, all stones Empty, no history yet. -/
def GenInv {S P : Type} (b : Board S P) : Prop :=
  Bounded b.points ∧ SymAdj b.points ∧ (∀ a, tyAt b.points a = StoneType.Empty) ∧
  b.history = [] ∧ b.history_idx = 0

/-- Meaning of a generation-loop result: an early return (ceiling hit) keeps
the invariant with at most 2500 points; a normal exit also carries the exact
count, still strictly below the ceiling. -/
def LoopOut {S P : Type} : Board S P ⊕ (Board S P × Nat) → Prop
  | Sum.inl bE => GenInv bE ∧ bE.points.length ≤ 2500
  | Sum.inr (b, c) => GenInv b ∧ b.points.length = c ∧ c < 2500

theorem addPoint_genInv {S P : Type} (g : Geom S P) (b : Board S P)
    (dirs revDirs : List S) (t : S) (r : Bool) (h : GenInv b) :
    GenInv (b.addPoint g dirs revDirs t r) ∧
    (b.addPoint g dirs revDirs t r).points.length = b.points.length + 1 := by
  obtain ⟨hB, hS, hT, hh, hi⟩ := h
  obtain ⟨hB', hS', hT', hl', hh', hi'⟩ := addPoint_preserves g b dirs revDirs t r hB hS hT
  exact ⟨⟨hB', hS', hT', hh'.trans hh, hi'.trans hi⟩, hl'⟩

theorem ringInner_out {S P : Type} (g : Geom S P) (dirs revDirs : List S) (i j : Nat) :
    ∀ (cur : S) (k : Nat) (b : Board S P) (count : Nat),
      GenInv b → b.points.length = count → count < 2500 →
      LoopOut (ringInner g dirs revDirs i j cur k b count) := by
  intro cur k b count
  induction cur, k, b, count using ringInner.induct g dirs revDirs i j with
  | case1 cur b count dir link_reversed cur' pos hfound ih =>
    intro hG hL hC
    rw [ringInner]
    set D := dirs.getD ((j + 0) % dirs.length) g.one with hD
    set LR := (0 % 2 == 1 ^^ reversedAt b.points i) with hLR
    set C := nextTransform g cur D LR with hC2
    set POS := g.app C g.zero with hPOS
    have hfound2 : Board.findPoint g b POS (1/1000) ≠ -1 := hfound
    rw [if_pos hfound2, if_pos rfl]
    exact ih hG hL hC
  | case2 cur k b count dir link_reversed cur' pos hfound hk =>
    intro hG hL hC
    rw [ringInner]
    set D := dirs.getD ((j + k) % dirs.length) g.one with hD
    set LR := (k % 2 == 1 ^^ reversedAt b.points i) with hLR
    set C := nextTransform g cur D LR with hC2
    set POS := g.app C g.zero with hPOS
    have hfound2 : Board.findPoint g b POS (1/1000) ≠ -1 := hfound
    rw [if_pos hfound2, if_neg hk]
    exact ⟨hG, hL, hC⟩
  | case3 cur k b count dir link_reversed cur' pos hnotfound count' hceil =>
    intro hG hL hC
    have hceil' : 2500 ≤ count + 1 := hceil
    rw [ringInner]
    set D := dirs.getD ((j + k) % dirs.length) g.one with hD
    set LR := (k % 2 == 1 ^^ reversedAt b.points i) with hLR
    set C := nextTransform g cur D LR with hC2
    set POS := g.app C g.zero with hPOS
    have hnf2 : ¬ Board.findPoint g b POS (1/1000) ≠ -1 := hnotfound
    rw [if_neg hnf2, if_pos hceil']
    obtain ⟨hG', hl'⟩ := addPoint_genInv g b dirs revDirs C (!LR) hG
    exact ⟨hG', by omega⟩
  | case4 cur k b count dir link_reversed cur' pos hnotfound b' count' hnoceil ih =>
    intro hG hL hC
    have hnoceil' : ¬ 2500 ≤ count + 1 := hnoceil
    rw [ringInner]
    set D := dirs.getD ((j + k) % dirs.length) g.one with hD
    set LR := (k % 2 == 1 ^^ reversedAt b.points i) with hLR
    set C := nextTransform g cur D LR with hC2
    set POS := g.app C g.zero with hPOS
    have hnf2 : ¬ Board.findPoint g b POS (1/1000) ≠ -1 := hnotfound
    rw [if_neg hnf2, if_neg hnoceil']
    obtain ⟨hG', hl'⟩ := addPoint_genInv g b dirs revDirs C (!LR) hG
    have hb'eq : b'.points.length = (Board.addPoint g b dirs revDirs C (!LR)).points.length := rfl
    have hc'eq : count' = count + 1 := rfl
    exact ih hG' (by omega) (by omega)

theorem ringMiddle_out {S P : Type} (g : Geom S P) (dirs revDirs : List S) (i : Nat) :
    ∀ (j : Nat) (b : Board S P) (count : Nat),
      GenInv b → b.points.length = count → count < 2500 →
      LoopOut (ringMiddle g dirs revDirs i j b count) := by
  intro j b count
  induction j, b, count using ringMiddle.induct g dirs revDirs i with
  | case1 j b count hj bE hinner =>
    intro hG hL hC
    rw [ringMiddle, if_pos hj, hinner]
    have hres := ringInner_out g dirs revDirs i j (transformAt g b.points i) 0 b count hG hL hC
    rw [hinner] at hres
    exact hres
  | case2 j b count hj b' count' hinner ih =>
    intro hG hL hC
    rw [ringMiddle, if_pos hj, hinner]
    have hres := ringInner_out g dirs revDirs i j (transformAt g b.points i) 0 b count hG hL hC
    rw [hinner] at hres
    obtain ⟨hG', hL', hC'⟩ := hres
    exact ih hG' hL' hC'
  | case3 j b count hj =>
    intro hG hL hC
    rw [ringMiddle, if_neg hj]
    exact ⟨hG, hL, hC⟩

theorem ringPoints_out {S P : Type} (g : Geom S P) (dirs revDirs : List S) :
    ∀ (i l : Nat) (b : Board S P) (count : Nat),
      GenInv b → b.points.length = count → count < 2500 →
      LoopOut (ringPoints g dirs revDirs i l b count) := by
  intro i l b count
  induction i, l, b, count using ringPoints.induct g dirs revDirs with
  | case1 i l b count hi bE hmid =>
    intro hG hL hC
    rw [ringPoints, if_pos hi, hmid]
    have hres := ringMiddle_out g dirs revDirs i 0 b count hG hL hC
    rw [hmid] at hres
    exact hres
  | case2 i l b count hi b' count' hmid ih =>
    intro hG hL hC
    rw [ringPoints, if_pos hi, hmid]
    have hres := ringMiddle_out g dirs revDirs i 0 b count hG hL hC
    rw [hmid] at hres
    obtain ⟨hG', hL', hC'⟩ := hres
    exact ih hG' hL' hC'
  | case3 i l b count hi =>
    intro hG hL hC
    rw [ringPoints, if_neg hi]
    exact ⟨hG, hL, hC⟩

theorem ringsLoop_out {S P : Type} (g : Geom S P) (dirs revDirs : List S) :
    ∀ (r start_i : Nat) (b : Board S P) (count : Nat),
      GenInv b → b.points.length = count → count < 2500 →
      LoopOut (ringsLoop g dirs revDirs r start_i b count)
  | 0, s, b, count, hG, hL, hC => ⟨hG, hL, hC⟩
  | r + 1, s, b, count, hG, hL, hC => by
    show LoopOut (match ringPoints g dirs revDirs s b.points.length b count with
      | Sum.inl bE => Sum.inl bE
      | Sum.inr (b', count') => ringsLoop g dirs revDirs r b.points.length b' count')
    cases hres : ringPoints g dirs revDirs s b.points.length b count with
    | inl bE =>
      have hout := ringPoints_out g dirs revDirs s b.points.length b count hG hL hC
      rw [hres] at hout
      exact hout
    | inr pr =>
      obtain ⟨b', count'⟩ := pr
      have hout := ringPoints_out g dirs revDirs s b.points.length b count hG hL hC
      rw [hres] at hout
      obtain ⟨hG', hL', hC'⟩ := hout
      exact ringsLoop_out g dirs revDirs r b.points.length b' count' hG' hL' hC'

/-- Everything makeBoard can return: a board with valid, symmetric adjacency,
all points Empty, cursor 0, at most 2500 points, and either no history (the
early ceiling return) or exactly the initial all-Empty snapshot. -/
theorem makeBoard_out {S P : Type} (g : Geom S P) (tp : TilingParameters) (e : Nat)
    (b : Board S P) (hmb : makeBoard g tp e = some b) :
    Bounded b.points ∧ SymAdj b.points ∧ b.points.length ≤ 2500 ∧
    b.history_idx = 0 ∧ (∀ a, tyAt b.points a = StoneType.Empty) ∧
    (b.history = [] ∨
      b.history = [List.replicate b.points.length StoneType.Empty]) := by
  by_cases he : e % 2 = 1
  · have hG0 : GenInv (emptyBoard tp : Board S P) := by
      refine ⟨?_, ?_, ?_, rfl, rfl⟩
      · intro a x hx
        simp [nbrsAt, emptyBoard] at hx
      · intro a c
        simp [nbrsAt, emptyBoard]
      · intro a
        rfl
    obtain ⟨hG1, hL1⟩ := addPoint_genInv g (emptyBoard tp) (neighborDirections g tp)
      ((neighborDirections g tp).map g.reverse) g.one false hG0
    have hL1' : (initialBoard g tp : Board S P).points.length = 1 := by
      rw [initialBoard, hL1]
      rfl
    rw [makeBoard, if_pos he] at hmb
    have hout := ringsLoop_out g (neighborDirections g tp)
      ((neighborDirections g tp).map g.reverse) (e / 2) 0 (initialBoard g tp) 1
      hG1 hL1' (by omega)
    cases hres : ringsLoop g (neighborDirections g tp)
        ((neighborDirections g tp).map g.reverse) (e / 2) 0 (initialBoard g tp) 1 with
    | inl bE =>
      rw [hres] at hmb hout
      obtain ⟨⟨hB, hS, hT, hh, hi⟩, hlen⟩ := hout
      cases hmb
      exact ⟨hB, hS, hlen, hi, hT, Or.inl hh⟩
    | inr pr =>
      obtain ⟨b2, c2⟩ := pr
      rw [hres] at hmb hout
      obtain ⟨⟨hB, hS, hT, hh, hi⟩, hlen, hcc⟩ := hout
      cases hmb
      have hple : (pushInitialHistory b2).points.length = b2.points.length := rfl
      refine ⟨hB, hS, by omega, hi, hT, Or.inr ?_⟩
      show b2.history ++ [List.replicate b2.points.length StoneType.Empty] = _
      rw [hh]
      rfl
  · rw [makeBoard, if_neg he] at hmb
    cases hmb

/-- C8: for every geometry, tiling parameters and odd edge_len, make_board
returns a board (termination is by construction of the model's well-founded
recursion, mirroring the code's ceiling-plus-break argument), and the hard
point-count ceiling bounds the number of points by 2500; a ceiling hit
returns the partial board (`Sum.inl` in the model) instead of continuing. -/
theorem makeBoard_terminates_bounded {S P : Type} (g : Geom S P)
    (tp : TilingParameters) (e : Nat) (he : e % 2 = 1) :
    ∃ b, makeBoard g tp e = some b ∧ b.points.length ≤ 2500 := by
  have hG0 : GenInv (emptyBoard tp : Board S P) := by
    refine ⟨?_, ?_, ?_, rfl, rfl⟩
    · intro a x hx
      simp [nbrsAt, emptyBoard] at hx
    · intro a c
      simp [nbrsAt, emptyBoard]
    · intro a
      rfl
  obtain ⟨hG1, hL1⟩ := addPoint_genInv g (emptyBoard tp) (neighborDirections g tp)
    ((neighborDirections g tp).map g.reverse) g.one false hG0
  have hL1' : (initialBoard g tp : Board S P).points.length = 1 := by
    rw [initialBoard, hL1]
    rfl
  have hout := ringsLoop_out g (neighborDirections g tp)
    ((neighborDirections g tp).map g.reverse) (e / 2) 0 (initialBoard g tp) 1
    hG1 hL1' (by omega)
  cases hres : ringsLoop g (neighborDirections g tp)
      ((neighborDirections g tp).map g.reverse) (e / 2) 0 (initialBoard g tp) 1 with
  | inl bE =>
    rw [hres] at hout
    refine ⟨bE, ?_, hout.2⟩
    rw [makeBoard, if_pos he, hres]
  | inr pr =>
    obtain ⟨b2, c2⟩ := pr
    rw [hres] at hout
    obtain ⟨hG2, hL2, hC2⟩ := hout
    refine ⟨pushInitialHistory b2, ?_, ?_⟩
    · rw [makeBoard, if_pos he, hres]
    · have hple : (pushInitialHistory b2).points.length = b2.points.length := rfl
      omega

/-- C10: every board produced by make_board has symmetric adjacency: B is in
A's neighbor list if and only if A is in B's. -/
theorem makeBoard_adjacency_symmetric {S P : Type} (g : Geom S P)
    (tp : TilingParameters) (e : Nat) (b : Board S P)
    (hmb : makeBoard g tp e = some b) :
    ∀ a c, c ∈ nbrsAt b.points a ↔ a ∈ nbrsAt b.points c :=
  (makeBoard_out g tp e b hmb).2.1

/-- Degenerate parameters with no neighbor directions at all: generation
finishes with the single seed point and everything is computable by rfl. -/
def tpZero : TilingParameters :=
  { edge_count := 1, sides := 0, around_vertex := 0, angle := 0, distance := 0,
    link_len := 0, stone_scale := 0 }

/-- The board make_board produces from `tpZero` at edge_len 1: one isolated
Empty point and the initial snapshot. -/
def bZero : Board Unit Unit :=
  { points := [{ pos := (), transform := (), relative_transform := (),
                 neighbors := [], ty := StoneType.Empty, reversed := false }],
    links := [], history := [[StoneType.Empty]], history_idx := 0,
    tiling_parameters := tpZero }

/-- Witness for C8 at a concrete geometry and parameter set. -/
theorem makeBoard_terminates_bounded_witness :
    1 % 2 = 1 ∧
    ∃ b : Board Unit Unit, makeBoard gU tpZero 1 = some b ∧ b.points.length ≤ 2500 :=
  ⟨rfl, makeBoard_terminates_bounded gU tpZero 1 rfl⟩

/-- Witness for C10 on the concretely computed `bZero` board. -/
theorem makeBoard_adjacency_symmetric_witness :
    makeBoard gU tpZero 1 = some bZero ∧
    (0 ∈ nbrsAt bZero.points 1 ↔ 1 ∈ nbrsAt bZero.points 0) :=
  ⟨rfl, makeBoard_adjacency_symmetric gU tpZero 1 bZero rfl 1 0⟩

/-- A geometry in which all distances are 1: no candidate point ever matches
an existing one, so generation adds points until the 2500-point ceiling. -/
def gNM : Geom Unit Unit :=
  { one := (), mul := fun _ _ => (), reverse := fun _ => (),
    normalize := fun _ => (), app := fun _ _ => (), zero := (),
    dist := fun _ _ => 1, translation := fun _ _ => () }

/-- Under `gNM`, find_point never finds anything at a sub-1 threshold. -/
theorem gNM_find : ∀ (pts : List (BoardPoint Unit Unit)) (pos : Unit) (d : ℚ)
    (k : Nat), d < 1 → findPointAux gNM pos d pts k = -1
  | [], _, _, _, _ => rfl
  | p :: ps, pos, d, k, hd => by
    show (if gNM.dist pos p.pos ≤ d then ((k : Nat) : Int)
          else findPointAux gNM pos d ps (k + 1)) = -1
    rw [if_neg (by
      show ¬((1 : ℚ) ≤ d)
      exact not_le.mpr hd)]
    exact gNM_find ps pos d (k + 1) hd

/-- Under `gNM` the inner ring walk always hits the ceiling: it returns an
early board whose history (still empty during generation) and cursor are
inherited unchanged. -/
theorem ringInner_nm (dirs revDirs : List Unit) (i j : Nat) :
    ∀ (cur : Unit) (k : Nat) (b : Board Unit Unit) (count : Nat),
      ∃ bE, ringInner gNM dirs revDirs i j cur k b count = Sum.inl bE ∧
        bE.history = b.history ∧ bE.history_idx = b.history_idx := by
  intro cur k b count
  induction cur, k, b, count using ringInner.induct gNM dirs revDirs i j with
  | case1 cur b count dir link_reversed cur' pos hfound ih =>
    have hnone : Board.findPoint gNM b pos (1/1000) = -1 :=
      gNM_find b.points pos (1/1000) 0 (by norm_num)
    exact absurd hnone hfound
  | case2 cur k b count dir link_reversed cur' pos hfound hk =>
    have hnone : Board.findPoint gNM b pos (1/1000) = -1 :=
      gNM_find b.points pos (1/1000) 0 (by norm_num)
    exact absurd hnone hfound
  | case3 cur k b count dir link_reversed cur' pos hnotfound count' hceil =>
    have hceil' : 2500 ≤ count + 1 := hceil
    rw [ringInner]
    set D := dirs.getD ((j + k) % dirs.length) gNM.one with hD
    set LR := (k % 2 == 1 ^^ reversedAt b.points i) with hLR
    set C := nextTransform gNM cur D LR with hC2
    set POS := gNM.app C gNM.zero with hPOS
    have hnf2 : ¬ Board.findPoint gNM b POS (1/1000) ≠ -1 := hnotfound
    rw [if_neg hnf2, if_pos hceil']
    exact ⟨_, rfl, rfl, rfl⟩
  | case4 cur k b count dir link_reversed cur' pos hnotfound b' count' hnoceil ih =>
    have hnoceil' : ¬ 2500 ≤ count + 1 := hnoceil
    rw [ringInner]
    set D := dirs.getD ((j + k) % dirs.length) gNM.one with hD
    set LR := (k % 2 == 1 ^^ reversedAt b.points i) with hLR
    set C := nextTransform gNM cur D LR with hC2
    set POS := gNM.app C gNM.zero with hPOS
    have hnf2 : ¬ Board.findPoint gNM b POS (1/1000) ≠ -1 := hnotfound
    rw [if_neg hnf2, if_neg hnoceil']
    obtain ⟨bE, heq, hh, hi⟩ := ih
    refine ⟨bE, ?_, ?_, ?_⟩
    · exact heq
    · exact hh
    · exact hi

theorem ringMiddle_nm (dirs revDirs : List Unit) (i j : Nat)
    (b : Board Unit Unit) (count : Nat) (hj : j < dirs.length) :
    ∃ bE, ringMiddle gNM dirs revDirs i j b count = Sum.inl bE ∧
      bE.history = b.history ∧ bE.history_idx = b.history_idx := by
  obtain ⟨bE, heq, hh, hi⟩ :=
    ringInner_nm dirs revDirs i j (transformAt gNM b.points i) 0 b count
  refine ⟨bE, ?_, hh, hi⟩
  rw [ringMiddle, if_pos hj, heq]

theorem ringPoints_nm (dirs revDirs : List Unit) (i l : Nat)
    (b : Board Unit Unit) (count : Nat) (hi : i < l) (hd : 0 < dirs.length) :
    ∃ bE, ringPoints gNM dirs revDirs i l b count = Sum.inl bE ∧
      bE.history = b.history ∧ bE.history_idx = b.history_idx := by
  obtain ⟨bE, heq, hh, hi'⟩ := ringMiddle_nm dirs revDirs i 0 b count hd
  refine ⟨bE, ?_, hh, hi'⟩
  rw [ringPoints, if_pos hi, heq]

theorem ringsLoop_nm (dirs revDirs : List Unit) (r : Nat)
    (b : Board Unit Unit) (count : Nat) (hb : 0 < b.points.length)
    (hd : 0 < dirs.length) :
    ∃ bE, ringsLoop gNM dirs revDirs (r + 1) 0 b count = Sum.inl bE ∧
      bE.history = b.history ∧ bE.history_idx = b.history_idx := by
  obtain ⟨bE, heq, hh, hi⟩ :=
    ringPoints_nm dirs revDirs 0 b.points.length b count hb hd
  refine ⟨bE, ?_, hh, hi⟩
  rw [ringsLoop]
  simp only [heq]

/-- Parameters that drive `gNM` generation: one neighbor direction. -/
def tpNM : TilingParameters :=
  { edge_count := 3, sides := 0, around_vertex := 1, angle := 0, distance := 0,
    link_len := 0, stone_scale := 0 }

/-- C4 failing case: with a geometry in which no candidate ever deduplicates,
make_board at edge_len 3 hits the 2500-point ceiling and returns early —
with an empty history and cursor 0, so the history invariant
0 ≤ cursor < length fails on the returned board (0 < 0 is false).  The code
skips the initial snapshot push (src/game/mod.rs:134-136) on the early return
at line 126. -/
theorem makeBoard_ceiling_history_empty :
    (makeBoard gNM tpNM 3).map (fun b => (b.history, b.history_idx)) =
      some ([], 0) := by
  have hdl : 0 < (neighborDirections gNM tpNM).length := by
    rw [neighborDirections]
    decide
  have hlen1 : (initialBoard gNM tpNM : Board Unit Unit).points.length = 1 := by
    have hB : Bounded ((emptyBoard tpNM : Board Unit Unit).points) := by
      intro a x hx
      simp [nbrsAt, emptyBoard] at hx
    have hS : SymAdj ((emptyBoard tpNM : Board Unit Unit).points) := by
      intro a c
      simp [nbrsAt, emptyBoard]
    have hT : ∀ a, tyAt ((emptyBoard tpNM : Board Unit Unit).points) a =
        StoneType.Empty := fun a => rfl
    rw [initialBoard]
    exact (addPoint_preserves gNM (emptyBoard tpNM) (neighborDirections gNM tpNM)
      ((neighborDirections gNM tpNM).map gNM.reverse) gNM.one false hB hS hT).2.2.2.1
  obtain ⟨bE, heq, hh, hi⟩ := ringsLoop_nm (neighborDirections gNM tpNM)
    ((neighborDirections gNM tpNM).map gNM.reverse) 0 (initialBoard gNM tpNM) 1
    (by omega) hdl
  rw [makeBoard, if_pos (by decide : 3 % 2 = 1)]
  rw [show (3 / 2 : Nat) = 0 + 1 from rfl, heq]
  have hh1 : (initialBoard gNM tpNM : Board Unit Unit).history = [] := rfl
  have hi1 : (initialBoard gNM tpNM : Board Unit Unit).history_idx = 0 := rfl
  show some (bE.history, bE.history_idx) = some ([], 0)
  rw [show bE.history = [] from hh.trans hh1,
    show bE.history_idx = 0 from hi.trans hi1]

/-! ## C5: undo/redo roundtrip (fn save_move, fn move_history) -/

/-- setTyList preserves the number of points. -/
theorem setTyList_length {S P : Type} :
    ∀ (pts : List (BoardPoint S P)) (i : Nat) (t : StoneType),
      (setTyList pts i t).length = pts.length
  | [], _, _ => rfl
  | p :: ps, 0, t => rfl
  | p :: ps, m + 1, t => by
    show (setTyList ps m t).length + 1 = ps.length + 1
    rw [setTyList_length ps m t]

/-- setCaptured preserves the number of points. -/
theorem setCaptured_length {S P : Type} :
    ∀ (pts : List (BoardPoint S P)) (idxs : List Nat),
      (setCaptured pts idxs).length = pts.length
  | _, [] => rfl
  | pts, i :: idxs => by
    show (setCaptured (setTyList pts i StoneType.Empty) idxs).length = pts.length
    rw [setCaptured_length (setTyList pts i StoneType.Empty) idxs, setTyList_length]

/-- Writing back the stone already stored is a no-op, with no range
requirement (out of range both the read and the write default out). -/
theorem setTyList_tyAt_eq {S P : Type} :
    ∀ (pts : List (BoardPoint S P)) (i : Nat) (t : StoneType),
      tyAt pts i = t → setTyList pts i t = pts
  | [], _, _, _ => rfl
  | p :: ps, 0, t, hty => by
    show ({ p with ty := t } :: ps) = p :: ps
    have hp : p.ty = t := hty
    rw [← hp]
  | p :: ps, m + 1, t, hty => by
    show p :: setTyList ps m t = p :: ps
    rw [setTyList_tyAt_eq ps m t hty]

/-- The history invariant: nonnegative cursor pointing at the last snapshot,
every snapshot covering every point, and the snapshot under the cursor equal
to the current stone state.  make_board establishes it on normal completion
and every accepted move maintains it. -/
def HInv {S P : Type} (b : Board S P) : Prop :=
  0 ≤ b.history_idx ∧
  b.history_idx.toNat + 1 = b.history.length ∧
  (∀ snap ∈ b.history, snap.length = b.points.length) ∧
  b.history.getD b.history_idx.toNat [] = b.currentTypes

/-- Case analysis of try_select_point: a rejected attempt returns the game
unchanged, an accepted attempt returns save_move of the board with the stone
placed and captures resolved (same number of points). -/
theorem trySelectPoint_cases {S P : Type} (g : Geom S P) (game : GameState S P)
    (pos : P) :
    ((game.trySelectPoint g pos).1 = game ∧ (game.trySelectPoint g pos).2 = false) ∨
    ((game.trySelectPoint g pos).2 = true ∧
      ∃ pts' : List (BoardPoint S P), pts'.length = game.board.points.length ∧
        (game.trySelectPoint g pos).1.board =
          Board.saveMove { game.board with points := pts' }) := by
  by_cases h0 : 0 ≤ game.board.findPoint g pos STONE_RADIUS
  · cases hty : tyAt game.board.points (game.board.findPoint g pos STONE_RADIUS).toNat with
    | Black =>
      have htry : game.trySelectPoint g pos = (game, false) := by
        simp only [GameState.trySelectPoint, h0, if_true, hty]
      rw [htry]
      exact Or.inl ⟨rfl, rfl⟩
    | White =>
      have htry : game.trySelectPoint g pos = (game, false) := by
        simp only [GameState.trySelectPoint, h0, if_true, hty]
      rw [htry]
      exact Or.inl ⟨rfl, rfl⟩
    | Empty =>
      by_cases hcap : ((game.setPointTy (game.board.findPoint g pos STONE_RADIUS).toNat
          (ownColor game.turn)).updateCaptures
          (game.board.findPoint g pos STONE_RADIUS).toNat).2
      · have htry : game.trySelectPoint g pos =
            ({ ((game.setPointTy (game.board.findPoint g pos STONE_RADIUS).toNat
                  (ownColor game.turn)).updateCaptures
                  (game.board.findPoint g pos STONE_RADIUS).toNat).1 with
                board := ((game.setPointTy (game.board.findPoint g pos STONE_RADIUS).toNat
                  (ownColor game.turn)).updateCaptures
                  (game.board.findPoint g pos STONE_RADIUS).toNat).1.board.saveMove },
              true) := by
          simp only [GameState.trySelectPoint, h0, if_true, hty, hcap, Bool.not_true,
            Bool.false_eq_true, if_false]
        rw [htry]
        refine Or.inr ⟨rfl, _, ?_, rfl⟩
        rw [setCaptured_length]
        exact setTyList_length game.board.points _ _
      · have hcap' : ((game.setPointTy (game.board.findPoint g pos STONE_RADIUS).toNat
            (ownColor game.turn)).updateCaptures
            (game.board.findPoint g pos STONE_RADIUS).toNat).2 = false := by
          simpa using hcap
        by_cases hsc : (((game.setPointTy (game.board.findPoint g pos STONE_RADIUS).toNat
            (ownColor game.turn)).updateCaptures
            (game.board.findPoint g pos STONE_RADIUS).toNat).1).isSelfCapture
            (game.board.findPoint g pos STONE_RADIUS).toNat
        · have htry : game.trySelectPoint g pos =
              ((((game.setPointTy (game.board.findPoint g pos STONE_RADIUS).toNat
                  (ownColor game.turn)).updateCaptures
                  (game.board.findPoint g pos STONE_RADIUS).toNat).1).setPointTy
                (game.board.findPoint g pos STONE_RADIUS).toNat StoneType.Empty,
                false) := by
            simp only [GameState.trySelectPoint, h0, if_true, hty, hcap', Bool.not_false,
              if_true, hsc]
          rw [htry]
          refine Or.inl ⟨?_, rfl⟩
          rw [updateCaptures_of_not_captured _ _ hcap']
          show ({ game with board := { game.board with
              points := setTyList (setTyList game.board.points
                (game.board.findPoint g pos STONE_RADIUS).toNat (ownColor game.turn))
                (game.board.findPoint g pos STONE_RADIUS).toNat StoneType.Empty } }) = game
          rw [setTyList_setTyList,
            setTyList_tyAt_eq game.board.points
              (game.board.findPoint g pos STONE_RADIUS).toNat StoneType.Empty hty]
        · have hsc' : (((game.setPointTy (game.board.findPoint g pos STONE_RADIUS).toNat
              (ownColor game.turn)).updateCaptures
              (game.board.findPoint g pos STONE_RADIUS).toNat).1).isSelfCapture
              (game.board.findPoint g pos STONE_RADIUS).toNat = false := by
            simpa using hsc
          have htry : game.trySelectPoint g pos =
              ({ ((game.setPointTy (game.board.findPoint g pos STONE_RADIUS).toNat
                    (ownColor game.turn)).updateCaptures
                    (game.board.findPoint g pos STONE_RADIUS).toNat).1 with
                  board := ((game.setPointTy (game.board.findPoint g pos STONE_RADIUS).toNat
                    (ownColor game.turn)).updateCaptures
                    (game.board.findPoint g pos STONE_RADIUS).toNat).1.board.saveMove },
                true) := by
            simp only [GameState.trySelectPoint, h0, if_true, hty, hcap', Bool.not_false,
              if_true, hsc', Bool.false_eq_true, if_false]
          rw [htry]
          refine Or.inr ⟨rfl, _, ?_, rfl⟩
          rw [setCaptured_length]
          exact setTyList_length game.board.points _ _
  · have htry : game.trySelectPoint g pos = (game, false) := by
      simp only [GameState.trySelectPoint, h0, if_false]
    rw [htry]
    exact Or.inl ⟨rfl, rfl⟩

/-- save_move of a points-mutated board with the same number of points
restores the history invariant and advances the cursor by one. -/
theorem saveMove_HInv {S P : Type} (b : Board S P) (pts' : List (BoardPoint S P))
    (hlen : pts'.length = b.points.length) (h : HInv b) :
    HInv (Board.saveMove { b with points := pts' }) ∧
    (Board.saveMove { b with points := pts' }).history_idx = b.history_idx + 1 := by
  obtain ⟨h0, h1, h2, h3⟩ := h
  have htoNat : (b.history_idx + 1).toNat = b.history.length := by omega
  have e1 : Board.saveMove { b with points := pts' } =
      { b with points := pts',
               history_idx := b.history_idx + 1,
               history := b.history.take (b.history_idx + 1).toNat ++
                 [pts'.map (fun p => p.ty)] } := rfl
  have hsave : Board.saveMove { b with points := pts' } =
      { b with points := pts',
               history_idx := b.history_idx + 1,
               history := b.history ++ [pts'.map (fun p => p.ty)] } := by
    rw [e1, htoNat, List.take_length]
  rw [hsave]
  refine ⟨⟨?_, ?_, ?_, ?_⟩, rfl⟩
  · show 0 ≤ b.history_idx + 1
    omega
  · show (b.history_idx + 1).toNat + 1 = (b.history ++ [pts'.map (fun p => p.ty)]).length
    rw [List.length_append]
    simp only [List.length_cons, List.length_nil]
    omega
  · intro snap hsnap
    show snap.length = pts'.length
    rcases List.mem_append.mp hsnap with hold | hnew
    · rw [h2 snap hold, hlen]
    · rw [List.mem_singleton.mp hnew]
      exact List.length_map _ _
  · show (b.history ++ [pts'.map (fun p => p.ty)]).getD (b.history_idx + 1).toNat [] =
      pts'.map (fun p => p.ty)
    rw [htoNat]
    show ((b.history ++ [pts'.map (fun p => p.ty)]).get? b.history.length).getD [] =
      pts'.map (fun p => p.ty)
    rw [List.get?_append_right (Nat.le_refl _), Nat.sub_self]
    rfl

/-- select_point preserves the history invariant, and the cursor advances
exactly when the attempt is accepted. -/
theorem selectPoint_HInv {S P : Type} (g : Geom S P) (game : GameState S P)
    (pos : P) (h : HInv game.board) :
    HInv (game.selectPoint g pos).board ∧
    (game.selectPoint g pos).board.history_idx =
      game.board.history_idx +
        (if (game.trySelectPoint g pos).2 then 1 else 0) := by
  rcases trySelectPoint_cases g game pos with ⟨h1, h2⟩ | ⟨h2, pts', hlen, hb⟩
  · have hsel : game.selectPoint g pos = (game.trySelectPoint g pos).1 := by
      simp only [GameState.selectPoint, h2, Bool.false_eq_true, if_false]
    rw [hsel, h1, h2]
    exact ⟨h, by simp⟩
  · have hsel : (game.selectPoint g pos).board = (game.trySelectPoint g pos).1.board := by
      simp only [GameState.selectPoint, h2, if_true]
    rw [hsel, hb, h2]
    obtain ⟨hI, hi⟩ := saveMove_HInv game.board pts' hlen h
    exact ⟨hI, by simpa using hi⟩

/-- Playing any sequence of clicks preserves the history invariant, and the
cursor advances by exactly the number of accepted moves. -/
theorem playCount_HInv {S P : Type} (g : Geom S P) :
    ∀ (ps : List P) (game : GameState S P), HInv game.board →
      HInv (playCount g game ps).1.board ∧
      (playCount g game ps).1.board.history_idx =
        game.board.history_idx + ((playCount g game ps).2 : Int) := by
  intro ps
  induction ps with
  | nil =>
    intro game h
    exact ⟨h, by simp [playCount]⟩
  | cons p ps ih =>
    intro game h
    obtain ⟨hI, hidx⟩ := selectPoint_HInv g game p h
    obtain ⟨hI', hidx'⟩ := ih (game.selectPoint g p) hI
    have hstep : playCount g game (p :: ps) =
        ((playCount g (game.selectPoint g p) ps).1,
         (playCount g (game.selectPoint g p) ps).2 +
           (if (game.trySelectPoint g p).2 then 1 else 0)) := rfl
    rw [hstep]
    refine ⟨hI', ?_⟩
    show (playCount g (game.selectPoint g p) ps).1.board.history_idx =
      game.board.history_idx +
        (((playCount g (game.selectPoint g p) ps).2 +
          (if (game.trySelectPoint g p).2 then 1 else 0) : Nat) : Int)
    rw [hidx', hidx]
    by_cases hacc : (game.trySelectPoint g p).2
    · simp only [hacc, if_true]
      push_cast
      ring
    · simp only [hacc, Bool.false_eq_true, if_false]
      push_cast
      ring

/-- In-range move_history, in explicit record form. -/
theorem moveHistory_in {S P : Type} (b : Board S P) (offset : Int)
    (h0 : 0 ≤ b.history_idx + offset)
    (h1 : b.history_idx + offset < (b.history.length : Int)) :
    b.moveHistory offset =
      { b with history_idx := b.history_idx + offset,
               points := restoreTypes b.points
                 (b.history.getD (b.history_idx + offset).toNat []) } := by
  unfold Board.moveHistory
  exact if_neg (by omega)

/-- Undoing n steps and then redoing n steps restores every stone state, on
any board satisfying the history invariant with at least n recorded moves. -/
theorem moveHistory_roundtrip {S P : Type} (b : Board S P) (n : Nat)
    (h : HInv b) (hn : (n : Int) ≤ b.history_idx) :
    ((b.moveHistory (-(n : Int))).moveHistory (n : Int)).currentTypes =
      b.currentTypes := by
  obtain ⟨h0, h1, h2, h3⟩ := h
  have hm1 := moveHistory_in b (-(n : Int)) (by omega) (by omega)
  have hlen1 : (b.moveHistory (-(n : Int))).points.length = b.points.length := by
    rw [hm1]
    exact restoreTypes_length b.points _
  have hh1 : (b.moveHistory (-(n : Int))).history = b.history := by rw [hm1]
  have hi1 : (b.moveHistory (-(n : Int))).history_idx = b.history_idx + (-(n : Int)) := by
    rw [hm1]
  have hm2 := moveHistory_in (b.moveHistory (-(n : Int))) (n : Int)
    (by rw [hi1]; omega) (by rw [hi1, hh1]; omega)
  rw [hm2]
  show (restoreTypes (b.moveHistory (-(n : Int))).points
      ((b.moveHistory (-(n : Int))).history.getD
        ((b.moveHistory (-(n : Int))).history_idx + (n : Int)).toNat [])).map
      (fun p => p.ty) = b.currentTypes
  rw [hh1, hi1]
  have hidx2 : (b.history_idx + (-(n : Int)) + (n : Int)).toNat = b.history_idx.toNat := by
    omega
  rw [hidx2, h3]
  have hctl : b.currentTypes.length = (b.moveHistory (-(n : Int))).points.length := by
    rw [hlen1]
    simp [Board.currentTypes]
  exact map_ty_restoreTypes _ _ hctl

/-- C5: after feeding any sequence of clicks to select_point, of which N were
accepted, move_history(-N) followed by move_history(N) leaves every point's
stone state bit-identical to the state after the last accepted move, for any
starting game satisfying the history invariant (as established by a completed
make_board). -/
theorem undo_redo_roundtrip {S P : Type} (g : Geom S P) (game : GameState S P)
    (ps : List P) (h : HInv game.board) :
    (((playCount g game ps).1.board.moveHistory
          (-(((playCount g game ps).2 : Nat) : Int))).moveHistory
        (((playCount g game ps).2 : Nat) : Int)).currentTypes =
      (playCount g game ps).1.board.currentTypes := by
  obtain ⟨hI, hidx⟩ := playCount_HInv g ps game h
  refine moveHistory_roundtrip _ _ hI ?_
  rw [hidx]
  have h0 := h.1
  omega

/-- A two-point board (mutually adjacent points at positions 0 and 1) with
its initial snapshot, satisfying the history invariant. -/
def bTwo : Board ℤ ℤ :=
  { points := [{ pos := 0, transform := 0, relative_transform := 0,
                 neighbors := [1], ty := StoneType.Empty, reversed := false },
               { pos := 1, transform := 1, relative_transform := 1,
                 neighbors := [0], ty := StoneType.Empty, reversed := false }],
    links := [(0, 1)], history := [[StoneType.Empty, StoneType.Empty]],
    history_idx := 0, tiling_parameters := tpTest }

/-- Fresh game on the two-point board, Black to move. -/
def gsTwo : GameState ℤ ℤ :=
  { board := bTwo, turn := Turn.Black, hover_idx := -1, needs_render := false }

/-- Witness for C5: the concrete two-point game satisfies the history
invariant, so the undo/redo roundtrip holds after the click sequence [0]
(an accepted Black move at point 0). -/
theorem undo_redo_roundtrip_witness :
    HInv gsTwo.board ∧
    (((playCount gZ gsTwo [(0 : ℤ)]).1.board.moveHistory
          (-(((playCount gZ gsTwo [(0 : ℤ)]).2 : Nat) : Int))).moveHistory
        (((playCount gZ gsTwo [(0 : ℤ)]).2 : Nat) : Int)).currentTypes =
      (playCount gZ gsTwo [(0 : ℤ)]).1.board.currentTypes :=
  ⟨by unfold HInv; decide, undo_redo_roundtrip gZ gsTwo [(0 : ℤ)] (by unfold HInv; decide)⟩
